import Mathlib

/-!
Verification development for the Podcastify conversion pipeline.

Shallow embedding of the backend modules:
* `backend/pdf_processor.py`  — chapter detection and TTS text chunking,
* `backend/content_filter.py` — page/section classification and cleaning,
* `backend/audio_processor.py`— audio chunk assembly,
* `backend/tts_services.py`   — per-backend sliding-window rate limiter,
* `backend/app.py`            — the job supervisor `process_conversion`.

Text is modelled as `List Char` (Python `str`), byte payloads of audio as
abstract sample lists, wall-clock time and progress fractions as `ℚ`.
-/

namespace Podcastify

/-! ## Character classes -/

/-- Python whitespace characters (as recognised by `str.strip`, `str.split`
and the regex class `\s` on ASCII text). -/
def isPySpace (c : Char) : Bool :=
  c = ' ' || c = '\t' || c = '\n' || c = '\x0d' || c = '\x0b' || c = '\x0c'

/-- Sentence delimiters of `re.split(r'[.!?]+', text)` in `chunk_text_for_tts`. -/
def isSentDelim (c : Char) : Bool :=
  c = '.' || c = '!' || c = '?'

/-- A character that separates spoken tokens: whitespace or a sentence
delimiter.  Used to state the round-trip property of the chunker. -/
def isTokDelim (c : Char) : Bool :=
  isPySpace c || isSentDelim c

/-- Word characters of the regex class `\w` (ASCII): used for the `\b`
boundaries in `_calculate_keyword_score`. -/
def isWordChar (c : Char) : Bool :=
  c.isAlphanum || c = '_'

/-! ## Python string helpers -/

/-- `dropWhile` never lengthens a list (termination helper). -/
theorem dropWhile_len_le (p : Char → Bool) (l : List Char) :
    (l.dropWhile p).length ≤ l.length :=
  (List.dropWhile_sublist p (l := l)).length_le

/-- Python `str.strip()`: drop leading and trailing whitespace. -/
def pyStrip (cs : List Char) : List Char :=
  ((cs.dropWhile isPySpace).reverse.dropWhile isPySpace).reverse

/-- Split a string at runs of delimiter characters (characters satisfying
`p`), dropping empty pieces.  Instantiated with `isPySpace` this is Python
`str.split()` with no separator; with `isTokDelim` it yields the spoken
tokens of a string.  (Written with structural recursion so that concrete
inputs evaluate by kernel reduction; `splitRuns_cons_keep` below recovers
the usual takeWhile/dropWhile formulation.) -/
def splitRuns (p : Char → Bool) : List Char → List (List Char)
  | [] => []
  | c :: rest =>
    if p c then splitRuns p rest
    else
      match rest with
      | [] => [[c]]
      | d :: _ =>
        if p d then [c] :: splitRuns p rest
        else
          match splitRuns p rest with
          | [] => [[c]]          -- unreachable: a run starting at `d` exists
          | t :: ts => (c :: t) :: ts

/-- Python `str.split()` (no separator): split on whitespace runs, dropping
empty pieces. -/
def pySplit : List Char → List (List Char) :=
  splitRuns isPySpace

/-- `re.split(r'[.!?]+', text)`: split at maximal runs of sentence
delimiters.  A leading or trailing run yields an empty segment, exactly as
`re.split` does.  (Structural recursion; `splitSentences_delim` and
`splitSentences_no_delim` below recover the takeWhile/dropWhile
formulation.) -/
def splitSentences : List Char → List (List Char)
  | [] => [[]]
  | c :: rest =>
    if isSentDelim c then
      match rest with
      | [] => [[], []]
      | d :: _ =>
        if isSentDelim d then splitSentences rest
        else [] :: splitSentences rest
    else
      match splitSentences rest with
      | [] => [[c]]              -- unreachable: the split is never empty
      | t :: ts => (c :: t) :: ts

/-- The spoken tokens of a string: maximal runs of characters that are
neither whitespace nor sentence delimiters. -/
def tokens : List Char → List (List Char) :=
  splitRuns isTokDelim

/-! ## Text Chunker — `PDFProcessor.chunk_text_for_tts`

Translation of `src/backend/pdf_processor.py`, lines 187-222.  The mutable
state of the Python loop is the pair `(chunks, current_chunk)`, threaded
explicitly.  The inner word-level loop (lines 206-215) and the outer
sentence loop (lines 194-217) become two recursive functions. -/

/-- The word-level packing loop of `chunk_text_for_tts` (lines 206-215):
`for word in words: ...` acting on state `(chunks, current_chunk)`. -/
def chunkWordsLoop (maxSize : ℕ) :
    List (List Char) → List (List Char) → List Char →
    List (List Char) × List Char
  | [], chunks, current => (chunks, current)
  | w :: ws, chunks, current =>
    if current.length + w.length > maxSize then
      if current ≠ [] then
        chunkWordsLoop maxSize ws (chunks ++ [pyStrip current]) w
      else
        -- single word longer than the limit is emitted as its own chunk
        chunkWordsLoop maxSize ws (chunks ++ [w]) current
    else
      chunkWordsLoop maxSize ws chunks
        (if current = [] then w else current ++ [' '] ++ w)

/-- The sentence-level loop of `chunk_text_for_tts` (lines 194-217). -/
def chunkSentLoop (maxSize : ℕ) :
    List (List Char) → List (List Char) → List Char →
    List (List Char) × List Char
  | [], chunks, current => (chunks, current)
  | s0 :: ss, chunks, current =>
    let s := pyStrip s0
    if s = [] then chunkSentLoop maxSize ss chunks current
    else if current.length + s.length > maxSize then
      if current ≠ [] then
        chunkSentLoop maxSize ss (chunks ++ [pyStrip current]) s
      else
        -- sentence itself is too long: split by words
        let r := chunkWordsLoop maxSize (pySplit s) chunks current
        chunkSentLoop maxSize ss r.1 r.2
    else
      chunkSentLoop maxSize ss chunks
        (if current = [] then s else current ++ ['.', ' '] ++ s)

/-- `PDFProcessor.chunk_text_for_tts(text, max_chunk_size)`. -/
def chunkTextForTTS (text : List Char) (maxSize : ℕ) : List (List Char) :=
  let r := chunkSentLoop maxSize (splitSentences text) [] []
  if r.2 ≠ [] then r.1 ++ [pyStrip r.2] else r.1

/-! ## Generic lemmas about `splitRuns` and `pyStrip` -/

/-- Strong induction on the length of a character list. -/
theorem listStrongRec {motive : List Char → Prop}
    (H : ∀ cs, (∀ ds : List Char, ds.length < cs.length → motive ds) → motive cs) :
    ∀ cs, motive cs := fun cs =>
  H cs (fun ds hlt => listStrongRec H ds)
termination_by cs => cs.length
decreasing_by exact hlt

theorem takeWhile_append_eq (p : Char → Bool) (a b : List Char) :
    (a ++ b).takeWhile p =
      if a.all p then a ++ b.takeWhile p else a.takeWhile p := by
  induction a with
  | nil => simp
  | cons c a ih =>
    cases hc : p c with
    | false => simp [List.takeWhile_cons, hc]
    | true =>
      by_cases ha : a.all p = true
      · simp [List.takeWhile_cons, hc, ih, ha]
      · simp [List.takeWhile_cons, hc, ih, ha]

theorem dropWhile_append_eq (p : Char → Bool) (a b : List Char) :
    (a ++ b).dropWhile p =
      if a.all p then b.dropWhile p else a.dropWhile p ++ b := by
  induction a with
  | nil => simp
  | cons c a ih =>
    cases hc : p c with
    | false => simp [List.dropWhile_cons, hc]
    | true =>
      by_cases ha : a.all p = true
      · simp [List.dropWhile_cons, hc, ih, ha]
      · simp [List.dropWhile_cons, hc, ih, ha]

theorem splitRuns_nil (p : Char → Bool) : splitRuns p [] = [] := by
  simp [splitRuns]

theorem splitRuns_cons_delim (p : Char → Bool) {c : Char} (rest : List Char)
    (hc : p c = true) : splitRuns p (c :: rest) = splitRuns p rest := by
  simp [splitRuns, hc]

theorem splitRuns_cons_keep (p : Char → Bool) {c : Char} (rest : List Char)
    (hc : p c = false) :
    splitRuns p (c :: rest) =
      (c :: rest.takeWhile (fun d => !p d))
        :: splitRuns p (rest.dropWhile (fun d => !p d)) := by
  induction rest generalizing c with
  | nil => simp [splitRuns, hc]
  | cons d rest2 ih =>
    cases hd : p d with
    | true =>
      simp [splitRuns, hc, hd, List.takeWhile_cons, List.dropWhile_cons]
    | false =>
      have hrec := @ih d hd
      have hstep : splitRuns p (c :: d :: rest2) =
          (match splitRuns p (d :: rest2) with
            | [] => [[c]]
            | t :: ts => (c :: t) :: ts) := by
        simp [splitRuns, hc, hd]
      rw [hstep, hrec]
      simp [List.takeWhile_cons, List.dropWhile_cons, hd]

theorem splitRuns_all_delim (p : Char → Bool) {cs : List Char}
    (h : ∀ c ∈ cs, p c = true) : splitRuns p cs = [] := by
  induction cs with
  | nil => exact splitRuns_nil p
  | cons c rest ih =>
    rw [splitRuns_cons_delim p rest (h c (by simp))]
    exact ih (fun d hd => h d (by simp [hd]))

theorem splitRuns_append_delims_left (p : Char → Bool) {a : List Char}
    (b : List Char) (h : ∀ c ∈ a, p c = true) :
    splitRuns p (a ++ b) = splitRuns p b := by
  induction a with
  | nil => simp
  | cons c rest ih =>
    rw [List.cons_append, splitRuns_cons_delim p _ (h c (by simp))]
    exact ih (fun d hd => h d (by simp [hd]))

theorem splitRuns_append (p : Char → Bool) (a b : List Char)
    (hb : ∀ c, b.head? = some c → p c = true) :
    splitRuns p (a ++ b) = splitRuns p a ++ splitRuns p b := by
  induction a using listStrongRec with
  | H a IH =>
    match a with
    | [] => simp [splitRuns_nil]
    | c :: a2 =>
      by_cases hc : p c = true
      · rw [List.cons_append, splitRuns_cons_delim p _ hc,
          splitRuns_cons_delim p _ hc]
        exact IH a2 (by simp)
      · simp only [Bool.not_eq_true] at hc
        rw [List.cons_append, splitRuns_cons_keep p _ hc,
          splitRuns_cons_keep p _ hc,
          takeWhile_append_eq, dropWhile_append_eq]
        by_cases ha : a2.all (fun d => !p d) = true
        · have htwb : b.takeWhile (fun d => !p d) = [] := by
            cases b with
            | nil => rfl
            | cons x xs =>
              have := hb x rfl
              simp [List.takeWhile_cons, this]
          have hdwb : b.dropWhile (fun d => !p d) = b := by
            cases b with
            | nil => rfl
            | cons x xs =>
              have := hb x rfl
              simp [List.dropWhile_cons, this]
          have ha2 : a2.dropWhile (fun d => !p d) = [] := by
            rw [List.dropWhile_eq_nil_iff]
            intro x hx
            simpa using List.all_eq_true.mp ha x hx
          have ha2tw : a2.takeWhile (fun d => !p d) = a2 :=
            List.takeWhile_eq_self_iff.mpr (List.all_eq_true.mp ha)
          simp [ha, htwb, hdwb, ha2, ha2tw, splitRuns_nil]
        · have hlen : (a2.dropWhile (fun d => !p d)).length < (c :: a2).length := by
            have := dropWhile_len_le (fun d => !p d) a2
            simp
            omega
          rw [if_neg ha, if_neg ha]
          rw [IH _ hlen]
          simp

theorem mem_splitRuns (p : Char → Bool) {cs w : List Char}
    (hw : w ∈ splitRuns p cs) : w ≠ [] ∧ ∀ ch ∈ w, p ch = false := by
  induction cs using listStrongRec with
  | H cs IH =>
    match cs with
    | [] => simp [splitRuns_nil] at hw
    | c :: rest =>
      by_cases hc : p c = true
      · rw [splitRuns_cons_delim p rest hc] at hw
        exact IH rest (by simp) hw
      · simp only [Bool.not_eq_true] at hc
        rw [splitRuns_cons_keep p rest hc] at hw
        rcases List.mem_cons.mp hw with h | h
        · subst h
          refine ⟨by simp, ?_⟩
          intro ch hch
          rcases List.mem_cons.mp hch with rfl | hch
          · exact hc
          · simpa using List.mem_takeWhile_imp hch
        · have hlen : (rest.dropWhile (fun d => !p d)).length < (c :: rest).length := by
            have := dropWhile_len_le (fun d => !p d) rest
            simp
            omega
          exact IH _ hlen h

theorem splitRuns_single (p : Char → Bool) {w : List Char}
    (hne : w ≠ []) (hall : ∀ ch ∈ w, p ch = false) : splitRuns p w = [w] := by
  match w with
  | [] => exact absurd rfl hne
  | c :: rest =>
    rw [splitRuns_cons_keep p rest (hall c (by simp))]
    have htw : rest.takeWhile (fun d => !p d) = rest := by
      rw [List.takeWhile_eq_self_iff]
      intro x hx
      simp [hall x (by simp [hx])]
    have hdw : rest.dropWhile (fun d => !p d) = [] := by
      rw [List.dropWhile_eq_nil_iff]
      intro x hx
      simp [hall x (by simp [hx])]
    simp [htw, hdw, splitRuns_nil]

/-! ### `splitSentences` facts: the takeWhile/dropWhile formulation -/

theorem splitSentences_ne_nil (cs : List Char) : splitSentences cs ≠ [] := by
  induction cs with
  | nil => simp [splitSentences]
  | cons c rest ih =>
    cases hc : isSentDelim c with
    | true =>
      cases rest with
      | nil => simp [splitSentences, hc]
      | cons d rest2 =>
        cases hd : isSentDelim d with
        | true => simpa [splitSentences, hc, hd] using ih
        | false => simp [splitSentences, hc, hd]
    | false =>
      cases hss : splitSentences rest with
      | nil => exact absurd hss ih
      | cons t ts => simp [splitSentences, hc, hss]

theorem splitSentences_no_delim {cs : List Char}
    (h : cs.dropWhile (fun c => !isSentDelim c) = []) : splitSentences cs = [cs] := by
  induction cs with
  | nil => rfl
  | cons c rest ih =>
    cases hc : isSentDelim c with
    | true =>
      rw [List.dropWhile_cons, if_neg (by simp [hc])] at h
      exact absurd h (by simp)
    | false =>
      rw [List.dropWhile_cons, if_pos (by simp [hc])] at h
      simp [splitSentences, hc, ih h]

theorem splitSentences_delim {cs : List Char} {d : Char} {tl : List Char}
    (h : cs.dropWhile (fun c => !isSentDelim c) = d :: tl) :
    splitSentences cs =
      cs.takeWhile (fun c => !isSentDelim c)
        :: splitSentences (tl.dropWhile isSentDelim) := by
  induction cs generalizing d tl with
  | nil => simp at h
  | cons c rest ih =>
    cases hc : isSentDelim c with
    | true =>
      rw [List.dropWhile_cons, if_neg (by simp [hc])] at h
      injection h with h1 h2
      subst h1
      subst h2
      rw [List.takeWhile_cons, if_neg (by simp [hc])]
      cases rest with
      | nil => simp [splitSentences, hc]
      | cons e rest2 =>
        cases he : isSentDelim e with
        | true =>
          have hrec := @ih e rest2
            (by rw [List.dropWhile_cons, if_neg (by simp [he])])
          rw [List.takeWhile_cons, if_neg (by simp [he])] at hrec
          have hstep : splitSentences (c :: e :: rest2) =
              splitSentences (e :: rest2) := by
            simp [splitSentences, hc, he]
          rw [hstep, hrec, List.dropWhile_cons, if_pos (by simp [he])]
        | false =>
          have hstep : splitSentences (c :: e :: rest2) =
              [] :: splitSentences (e :: rest2) := by
            simp [splitSentences, hc, he]
          rw [hstep, List.dropWhile_cons, if_neg (by simp [he])]
    | false =>
      rw [List.dropWhile_cons, if_pos (by simp [hc])] at h
      have hrec := @ih d tl h
      have hstep : splitSentences (c :: rest) =
          (match splitSentences rest with
            | [] => [[c]]
            | t :: ts => (c :: t) :: ts) := by
        simp [splitSentences, hc]
      rw [hstep, hrec]
      simp [List.takeWhile_cons, hc]

/-! ### `pyStrip` facts -/

theorem pyStrip_length_le (cs : List Char) : (pyStrip cs).length ≤ cs.length := by
  unfold pyStrip
  have h1 := dropWhile_len_le isPySpace cs
  have h2 := dropWhile_len_le isPySpace (cs.dropWhile isPySpace).reverse
  simp at h2 ⊢
  omega

/-- Every string is a whitespace prefix, its strip, and a whitespace
suffix. -/
theorem pyStrip_decomp (cs : List Char) :
    ∃ pre post, cs = pre ++ pyStrip cs ++ post ∧
      (∀ c ∈ pre, isPySpace c = true) ∧ (∀ c ∈ post, isPySpace c = true) := by
  refine ⟨cs.takeWhile isPySpace,
    ((cs.dropWhile isPySpace).reverse.takeWhile isPySpace).reverse, ?_, ?_, ?_⟩
  · conv_lhs => rw [← List.takeWhile_append_dropWhile (p := isPySpace) (l := cs)]
    unfold pyStrip
    rw [List.append_assoc]
    congr 1
    conv_lhs => rw [← List.reverse_reverse (cs.dropWhile isPySpace),
      ← List.takeWhile_append_dropWhile (p := isPySpace)
        (l := (cs.dropWhile isPySpace).reverse)]
    rw [List.reverse_append]
  · intro c hc
    exact List.mem_takeWhile_imp hc
  · intro c hc
    rw [List.mem_reverse] at hc
    exact List.mem_takeWhile_imp hc

/-- Stripping whitespace does not change the pieces produced by any
run-splitter whose delimiter class contains whitespace. -/
theorem splitRuns_pyStrip (p : Char → Bool)
    (hsub : ∀ c, isPySpace c = true → p c = true) (cs : List Char) :
    splitRuns p (pyStrip cs) = splitRuns p cs := by
  obtain ⟨pre, post, hdec, hpre, hpost⟩ := pyStrip_decomp cs
  conv_rhs => rw [hdec, List.append_assoc]
  rw [splitRuns_append_delims_left p _ (fun c hc => hsub c (hpre c hc)),
    splitRuns_append p _ post
      (fun c hc => hsub c (hpost c (List.mem_of_mem_head? (by rw [hc]; rfl)))),
    splitRuns_all_delim p (fun c hc => hsub c (hpost c hc))]
  simp

theorem dropWhile_eq_self_of_head {α : Type} (p : α → Bool) {l : List α}
    (h : ∀ c, l.head? = some c → p c = false) : l.dropWhile p = l := by
  cases l with
  | nil => rfl
  | cons c rest => simp [List.dropWhile_cons, h c rfl]

theorem head_dropWhile_false {α : Type} (p : α → Bool) {l : List α} {c : α}
    (h : (l.dropWhile p).head? = some c) : p c = false := by
  induction l with
  | nil => simp at h
  | cons a rest ih =>
    by_cases ha : p a = true
    · rw [List.dropWhile_cons, if_pos ha] at h
      exact ih h
    · simp only [Bool.not_eq_true] at ha
      rw [List.dropWhile_cons, if_neg (by simp [ha])] at h
      simp only [List.head?_cons, Option.some.injEq] at h
      rw [← h]
      exact ha

theorem pyStrip_idem (cs : List Char) : pyStrip (pyStrip cs) = pyStrip cs := by
  set A := cs.dropWhile isPySpace with hA
  set B := A.reverse.dropWhile isPySpace with hB
  have hstrip : pyStrip cs = B.reverse := rfl
  have hBhead : ∀ c, B.head? = some c → isPySpace c = false := by
    intro c hc
    exact head_dropWhile_false isPySpace (hB ▸ hc)
  have hBrevHead : ∀ c, B.reverse.head? = some c → isPySpace c = false := by
    intro c hc
    rw [List.head?_reverse] at hc
    -- the last element of `B` is the first element of `A`
    cases hBnil : B with
    | nil => rw [hBnil] at hc; simp at hc
    | cons x xs =>
      have hsplit : A.reverse.takeWhile isPySpace ++ B = A.reverse := by
        rw [hB]
        exact List.takeWhile_append_dropWhile _ _
      have hlast : B.getLast? = A.reverse.getLast? := by
        conv_rhs => rw [← hsplit]
        exact (List.getLast?_append_of_ne_nil _ (by simp [hBnil])).symm
      rw [hlast, List.getLast?_reverse] at hc
      exact head_dropWhile_false isPySpace (hA ▸ hc)
  rw [hstrip]
  unfold pyStrip
  rw [dropWhile_eq_self_of_head isPySpace hBrevHead, List.reverse_reverse,
    dropWhile_eq_self_of_head isPySpace hBhead]

/-! ## C1 — size bound of the chunker -/

/-- The stripped sentences of the input, as the chunker sees them. -/
def sentencesOf (text : List Char) : List (List Char) :=
  (splitSentences text).map pyStrip

theorem pySplit_pyStrip (cs : List Char) : pySplit (pyStrip cs) = pySplit cs :=
  splitRuns_pyStrip isPySpace (fun _ h => h) cs

/-- The shapes a chunk emitted by `chunk_text_for_tts` can take: within the
size bound plus the two joiner characters, a single word, or a whole
stripped sentence of the input. -/
def ChunkOK (maxSize : ℕ) (S : List (List Char)) (c : List Char) : Prop :=
  c.length ≤ maxSize + 2 ∨ (pySplit c).length = 1 ∨ c ∈ S

theorem ChunkOK_pyStrip {maxSize : ℕ} {S : List (List Char)}
    (hS : ∀ x ∈ S, pyStrip x = x) {c : List Char} (hc : ChunkOK maxSize S c) :
    ChunkOK maxSize S (pyStrip c) := by
  rcases hc with h | h | h
  · exact Or.inl (le_trans (pyStrip_length_le c) h)
  · exact Or.inr (Or.inl (by rw [pySplit_pyStrip]; exact h))
  · exact Or.inr (Or.inr (by rw [hS c h]; exact h))

theorem mem_pySplit_single {cs w : List Char} (hw : w ∈ pySplit cs) :
    pySplit w = [w] := by
  obtain ⟨hne, hall⟩ := mem_splitRuns isPySpace hw
  exact splitRuns_single isPySpace hne hall

theorem chunkWordsLoop_ok {maxSize : ℕ} {S : List (List Char)}
    (hS : ∀ x ∈ S, pyStrip x = x) :
    ∀ ws chunks current,
      (∀ w ∈ ws, pySplit w = [w]) →
      (∀ c ∈ chunks, ChunkOK maxSize S c) →
      (current = [] ∨ ChunkOK maxSize S current) →
      (∀ c ∈ (chunkWordsLoop maxSize ws chunks current).1, ChunkOK maxSize S c) ∧
      ((chunkWordsLoop maxSize ws chunks current).2 = [] ∨
        ChunkOK maxSize S (chunkWordsLoop maxSize ws chunks current).2) := by
  intro ws
  induction ws with
  | nil =>
    intro chunks current _ hch hcur
    exact ⟨hch, hcur⟩
  | cons w ws ih =>
    intro chunks current hws hch hcur
    have hw : pySplit w = [w] := hws w (by simp)
    have hws2 : ∀ x ∈ ws, pySplit x = [x] := fun x hx => hws x (by simp [hx])
    rw [chunkWordsLoop]
    by_cases hov : current.length + w.length > maxSize
    · rw [if_pos hov]
      by_cases hne : current ≠ []
      · rw [if_pos hne]
        refine ih _ w hws2 ?_ ?_
        · intro c hc
          rcases List.mem_append.mp hc with h | h
          · exact hch c h
          · rcases List.mem_singleton.mp h with rfl
            rcases hcur with rfl | hok
            · exact absurd rfl hne
            · exact ChunkOK_pyStrip hS hok
        · exact Or.inr (Or.inr (Or.inl (by rw [hw]; rfl)))
      · rw [if_neg hne]
        refine ih _ current hws2 ?_ hcur
        intro c hc
        rcases List.mem_append.mp hc with h | h
        · exact hch c h
        · rcases List.mem_singleton.mp h with rfl
          exact Or.inr (Or.inl (by rw [hw]; rfl))
    · rw [if_neg hov]
      refine ih _ _ hws2 hch (Or.inr ?_)
      by_cases hcur0 : current = []
      · rw [if_pos hcur0]
        exact Or.inr (Or.inl (by rw [hw]; rfl))
      · rw [if_neg hcur0]
        refine Or.inl ?_
        simp only [List.length_append, List.length_cons, List.length_nil]
        omega

theorem chunkSentLoop_ok {maxSize : ℕ} {S : List (List Char)}
    (hS : ∀ x ∈ S, pyStrip x = x) :
    ∀ ss chunks current,
      (∀ s ∈ ss, pyStrip s ∈ S) →
      (∀ c ∈ chunks, ChunkOK maxSize S c) →
      (current = [] ∨ ChunkOK maxSize S current) →
      (∀ c ∈ (chunkSentLoop maxSize ss chunks current).1, ChunkOK maxSize S c) ∧
      ((chunkSentLoop maxSize ss chunks current).2 = [] ∨
        ChunkOK maxSize S (chunkSentLoop maxSize ss chunks current).2) := by
  intro ss
  induction ss with
  | nil =>
    intro chunks current _ hch hcur
    exact ⟨hch, hcur⟩
  | cons s0 ss ih =>
    intro chunks current hss hch hcur
    have hsS : pyStrip s0 ∈ S := hss s0 (by simp)
    have hss2 : ∀ x ∈ ss, pyStrip x ∈ S := fun x hx => hss x (by simp [hx])
    rw [chunkSentLoop]
    by_cases hemp : pyStrip s0 = []
    · rw [if_pos hemp]
      exact ih chunks current hss2 hch hcur
    · rw [if_neg hemp]
      by_cases hov : current.length + (pyStrip s0).length > maxSize
      · rw [if_pos hov]
        by_cases hne : current ≠ []
        · rw [if_pos hne]
          refine ih _ _ hss2 ?_ (Or.inr (Or.inr (Or.inr hsS)))
          intro c hc
          rcases List.mem_append.mp hc with h | h
          · exact hch c h
          · rcases List.mem_singleton.mp h with rfl
            rcases hcur with rfl | hok
            · exact absurd rfl hne
            · exact ChunkOK_pyStrip hS hok
        · rw [if_neg hne]
          have hwords := chunkWordsLoop_ok hS (pySplit (pyStrip s0)) chunks current
            (fun w hw => mem_pySplit_single hw) hch hcur
          exact ih _ _ hss2 hwords.1 hwords.2
      · rw [if_neg hov]
        refine ih _ _ hss2 hch (Or.inr ?_)
        by_cases hcur0 : current = []
        · rw [if_pos hcur0]
          exact Or.inr (Or.inr hsS)
        · rw [if_neg hcur0]
          refine Or.inl ?_
          simp only [List.length_append, List.length_cons, List.length_nil]
          omega

/-- C1 (amended): every chunk produced by `chunk_text_for_tts` has length at
most `max_chunk_size + 2` (the overflow test at line 200 of
`pdf_processor.py` ignores the two characters of the `". "` joiner), or is a
single word, or is a whole stripped sentence of the input carried over
unsplit by line 203. -/
theorem chunkTextForTTS_size_bound (text : List Char) (maxSize : ℕ) :
    ∀ c ∈ chunkTextForTTS text maxSize,
      c.length ≤ maxSize + 2 ∨ (pySplit c).length = 1 ∨ c ∈ sentencesOf text := by
  intro c hc
  have hS : ∀ x ∈ sentencesOf text, pyStrip x = x := by
    intro x hx
    obtain ⟨y, _, rfl⟩ := List.mem_map.mp hx
    exact pyStrip_idem y
  have hmain := @chunkSentLoop_ok maxSize (sentencesOf text) hS (splitSentences text) [] []
    (fun s hs => List.mem_map_of_mem pyStrip hs) (by simp) (Or.inl rfl)
  unfold chunkTextForTTS at hc
  by_cases hfin : (chunkSentLoop maxSize (splitSentences text) [] []).2 ≠ []
  · rw [if_pos hfin] at hc
    rcases List.mem_append.mp hc with h | h
    · exact hmain.1 c h
    · rcases List.mem_singleton.mp h with rfl
      rcases hmain.2 with h2 | h2
      · exact absurd h2 hfin
      · exact ChunkOK_pyStrip hS h2
  · rw [if_neg hfin] at hc
    exact hmain.1 c hc

/-- C1 (counterexample): on the text `"ab. cd"` with `max_chunk_size = 4` the
chunker returns the single chunk `"ab. cd"` of length 6, which exceeds the
limit yet is not a single word — the `". "` joiner is not counted by the
overflow test. -/
theorem chunkTextForTTS_size_cex :
    ¬ (∀ c ∈ chunkTextForTTS (String.toList "ab. cd") 4,
        c.length ≤ 4 ∨ (pySplit c).length = 1) := by
  decide

/-- Witness for `chunkTextForTTS_size_bound` at a concrete input. -/
theorem chunkTextForTTS_size_bound_witness :
    (String.toList "ab") ∈ chunkTextForTTS (String.toList "ab. cd ef gh") 4 ∧
      ((String.toList "ab").length ≤ 4 + 2 ∨
        (pySplit (String.toList "ab")).length = 1 ∨
        (String.toList "ab") ∈ sentencesOf (String.toList "ab. cd ef gh")) :=
  ⟨by decide,
    chunkTextForTTS_size_bound (String.toList "ab. cd ef gh") 4
      (String.toList "ab") (by decide)⟩

/-! ## C2 — what the chunker preserves: the token sequence -/

theorem splitRuns_dropWhile_delims (p q : Char → Bool)
    (hq : ∀ c, q c = true → p c = true) (l : List Char) :
    splitRuns p (l.dropWhile q) = splitRuns p l := by
  induction l with
  | nil => simp
  | cons c rest ih =>
    cases hc : q c with
    | true =>
      rw [List.dropWhile_cons, if_pos hc, ih,
        splitRuns_cons_delim p rest (hq c hc)]
    | false => rw [List.dropWhile_cons, if_neg (by simp [hc])]

/-- Splitting at a delimiter subclass first and then tokenizing each piece
tokenizes the whole string. -/
theorem splitRuns_nested (p q : Char → Bool)
    (hq : ∀ c, q c = true → p c = true) :
    ∀ cs, ((splitRuns q cs).map (splitRuns p)).join = splitRuns p cs := by
  refine listStrongRec ?_
  intro cs IH
  match cs with
  | [] => simp [splitRuns_nil]
  | c :: rest =>
    cases hc : q c with
    | true =>
      rw [splitRuns_cons_delim q rest hc, splitRuns_cons_delim p rest (hq c hc)]
      exact IH rest (by simp)
    | false =>
      rw [splitRuns_cons_keep q rest hc]
      have hlen : (rest.dropWhile (fun d => !q d)).length < (c :: rest).length := by
        have := dropWhile_len_le (fun d => !q d) rest
        simp
        omega
      have hrec := IH _ hlen
      have hb : ∀ x, (rest.dropWhile (fun d => !q d)).head? = some x →
          p x = true := by
        intro x hx
        have hx2 := head_dropWhile_false (fun d => !q d) hx
        simp at hx2
        exact hq x hx2
      simp only [List.map_cons, List.join_cons, hrec]
      conv_rhs => rw [← List.takeWhile_append_dropWhile
        (p := fun d => !q d) (l := rest)]
      rw [← List.cons_append, splitRuns_append p _ _ hb]

theorem tokens_pyStrip (cs : List Char) : tokens (pyStrip cs) = tokens cs :=
  splitRuns_pyStrip isTokDelim (fun c h => by simp [isTokDelim, h]) cs

/-- `re.split(r'[.!?]+', ·)` then tokenizing each sentence tokenizes the
whole input. -/
theorem tokens_splitSentences :
    ∀ cs, ((splitSentences cs).map tokens).join = tokens cs := by
  refine listStrongRec ?_
  intro cs IH
  cases h : cs.dropWhile (fun c => !isSentDelim c) with
  | nil => rw [splitSentences_no_delim h]; simp
  | cons d tl =>
    rw [splitSentences_delim h]
    have hd : isSentDelim d = true := by
      have := head_dropWhile_false (fun c => !isSentDelim c) (l := cs)
        (by rw [h]; rfl)
      simpa using this
    have hdtok : isTokDelim d = true := by simp [isTokDelim, hd]
    have hlen1 : tl.length < cs.length := by
      have h1 : (cs.dropWhile (fun c => !isSentDelim c)).length ≤ cs.length :=
        dropWhile_len_le _ cs
      rw [h] at h1
      simp at h1
      omega
    have hlen2 : (tl.dropWhile isSentDelim).length < cs.length := by
      have := dropWhile_len_le isSentDelim tl
      omega
    have hrec := IH _ hlen2
    simp only [List.map_cons, List.join_cons, hrec]
    simp only [tokens]
    conv_rhs => rw [← List.takeWhile_append_dropWhile
      (p := fun c => !isSentDelim c) (l := cs), h]
    rw [splitRuns_append isTokDelim _ _
      (by intro x hx; simp at hx; rw [← hx]; exact hdtok)]
    rw [splitRuns_cons_delim isTokDelim tl hdtok,
      splitRuns_dropWhile_delims isTokDelim isSentDelim
        (fun c hc => by simp [isTokDelim, hc]) tl]

theorem tokens_append_space (cur w : List Char) :
    tokens (cur ++ [' '] ++ w) = tokens cur ++ tokens w := by
  rw [List.append_assoc, List.singleton_append]
  unfold tokens
  rw [splitRuns_append isTokDelim cur (' ' :: w)
    (by intro x hx; simp at hx; rw [← hx]; rfl)]
  rw [splitRuns_cons_delim isTokDelim w (by rfl)]

theorem tokens_append_dot_space (cur s : List Char) :
    tokens (cur ++ ['.', ' '] ++ s) = tokens cur ++ tokens s := by
  have h2 : ['.', ' '] ++ s = '.' :: (' ' :: s) := rfl
  rw [List.append_assoc, h2]
  unfold tokens
  rw [splitRuns_append isTokDelim cur ('.' :: ' ' :: s)
    (by intro x hx; simp at hx; rw [← hx]; rfl)]
  rw [splitRuns_cons_delim isTokDelim _ (by rfl),
    splitRuns_cons_delim isTokDelim s (by rfl)]

theorem chunkWordsLoop_tokens (maxSize : ℕ) :
    ∀ ws chunks current,
      (((chunkWordsLoop maxSize ws chunks current).1.map tokens).join ++
        tokens (chunkWordsLoop maxSize ws chunks current).2) =
      ((chunks.map tokens).join ++ tokens current ++ (ws.map tokens).join) := by
  intro ws
  induction ws with
  | nil => intro chunks current; simp [chunkWordsLoop]
  | cons w ws ih =>
    intro chunks current
    rw [chunkWordsLoop]
    by_cases hov : current.length + w.length > maxSize
    · rw [if_pos hov]
      by_cases hne : current ≠ []
      · rw [if_pos hne, ih]
        simp [tokens_pyStrip]
      · rw [if_neg hne, ih]
        simp only [Decidable.not_not] at hne
        subst hne
        simp [tokens, splitRuns_nil]
    · rw [if_neg hov]
      by_cases hcur0 : current = []
      · rw [if_pos hcur0, ih]
        subst hcur0
        simp [tokens, splitRuns_nil]
      · rw [if_neg hcur0, ih, tokens_append_space]
        simp

theorem chunkSentLoop_tokens (maxSize : ℕ) :
    ∀ ss chunks current,
      (((chunkSentLoop maxSize ss chunks current).1.map tokens).join ++
        tokens (chunkSentLoop maxSize ss chunks current).2) =
      ((chunks.map tokens).join ++ tokens current ++
        ((ss.map (fun s => tokens (pyStrip s))).join)) := by
  intro ss
  induction ss with
  | nil => intro chunks current; simp [chunkSentLoop]
  | cons s0 ss ih =>
    intro chunks current
    rw [chunkSentLoop]
    by_cases hemp : pyStrip s0 = []
    · rw [if_pos hemp, ih]
      simp [hemp, tokens, splitRuns_nil]
    · rw [if_neg hemp]
      by_cases hov : current.length + (pyStrip s0).length > maxSize
      · rw [if_pos hov]
        by_cases hne : current ≠ []
        · rw [if_pos hne, ih]
          simp [tokens_pyStrip]
        · rw [if_neg hne]
          simp only [Decidable.not_not] at hne
          subst hne
          rw [ih, chunkWordsLoop_tokens]
          have := splitRuns_nested isTokDelim isPySpace
            (fun c h => by simp [isTokDelim, h]) (pyStrip s0)
          simp only [pySplit, tokens] at this ⊢
          rw [this]
          simp [splitRuns_nil]
      · rw [if_neg hov]
        by_cases hcur0 : current = []
        · rw [if_pos hcur0, ih]
          subst hcur0
          simp [tokens, splitRuns_nil]
        · rw [if_neg hcur0, ih, tokens_append_dot_space]
          simp

/-- C2 (amended): the chunker preserves exactly the sequence of spoken
tokens — maximal runs of characters other than whitespace and the sentence
delimiters `.!?` — in order, with nothing dropped or duplicated.  (It does
not preserve the delimiters themselves: every boundary is rewritten to
`". "`, so concatenation reproduces the input only modulo whitespace AND
sentence-punctuation normalization.) -/
theorem chunkTextForTTS_tokens (text : List Char) (maxSize : ℕ) :
    (((chunkTextForTTS text maxSize).map tokens).join) = tokens text := by
  unfold chunkTextForTTS
  have hmain := chunkSentLoop_tokens maxSize (splitSentences text) [] []
  have hsent : ((splitSentences text).map (fun s => tokens (pyStrip s))).join
      = tokens text := by
    have : (splitSentences text).map (fun s => tokens (pyStrip s))
        = (splitSentences text).map tokens := by
      apply List.map_congr_left
      intro s _
      exact tokens_pyStrip s
    rw [this, tokens_splitSentences]
  have hnil : tokens ([] : List Char) = [] := splitRuns_nil isTokDelim
  by_cases hfin : (chunkSentLoop maxSize (splitSentences text) [] []).2 ≠ []
  · rw [if_pos hfin]
    have hflat : (List.map tokens
          ((chunkSentLoop maxSize (splitSentences text) [] []).1 ++
            [pyStrip (chunkSentLoop maxSize (splitSentences text) [] []).2])).join =
        (List.map tokens (chunkSentLoop maxSize (splitSentences text) [] []).1).join ++
          tokens (pyStrip (chunkSentLoop maxSize (splitSentences text) [] []).2) := by
      simp
    rw [hflat, tokens_pyStrip, hmain]
    simpa [hnil] using hsent
  · rw [if_neg hfin]
    simp only [Decidable.not_not] at hfin
    rw [hfin, hnil, List.append_nil] at hmain
    rw [hmain]
    simpa [hnil] using hsent

/-- Whitespace normalization: collapse whitespace runs to single spaces and
trim the ends. -/
def normalizeWS (cs : List Char) : List Char :=
  List.intercalate [' '] (pySplit cs)

/-- C2 (counterexample): chunking `"Hi! Yo?"` yields the single chunk
`"Hi. Yo"`; its whitespace-normalized form differs from the
whitespace-normalized input because the chunker rewrites `!` and `?` to
`.` and drops trailing delimiters.  Both natural readings of
"concatenating the chunks" (plain concatenation and space-joining) fail. -/
theorem chunkTextForTTS_roundtrip_cex :
    normalizeWS ((chunkTextForTTS (String.toList "Hi! Yo?") 4000).join) ≠
      normalizeWS (String.toList "Hi! Yo?") ∧
    normalizeWS (List.intercalate [' '] (chunkTextForTTS (String.toList "Hi! Yo?") 4000)) ≠
      normalizeWS (String.toList "Hi! Yo?") := by
  decide

/-! ## Chapter Segmenter — `PDFProcessor.detect_chapters`

Translation of `src/backend/pdf_processor.py`, lines 78-138.  The regex
machinery is implemented directly over `List Char`: the five patterns are
all anchored at a line start (`^` with `re.MULTILINE`) and matched with
`re.IGNORECASE`. -/

/-- `PageContent` of `pdf_processor.py` (lines 12-19). -/
structure PageContent where
  page_number : ℤ
  text : List Char
  word_count : ℕ
  has_images : Bool
  font_sizes : List ℚ
deriving DecidableEq

/-- `BookSection` of `pdf_processor.py` (lines 21-28). -/
structure BookSection where
  title : List Char
  start_page : ℤ
  end_page : ℤ
  content : List Char
  section_type : List Char
deriving DecidableEq

/-- Consume a literal pattern case-insensitively (`re.IGNORECASE`). -/
def dropCI : List Char → List Char → Option (List Char)
  | [], cs => some cs
  | _ :: _, [] => none
  | p :: ps, c :: cs => if c.toLower = p.toLower then dropCI ps cs else none

/-- Consume `\s+` (one or more whitespace characters). -/
def dropWS1 : List Char → Option (List Char)
  | [] => none
  | c :: r => if isPySpace c then some (r.dropWhile isPySpace) else none

def startsDigit : List Char → Bool
  | [] => false
  | c :: _ => c.isDigit

/-- `CHAPTER\s+\d+` and `Chapter\s+\d+` (identical under `re.IGNORECASE`). -/
def matchChapterNum (cs : List Char) : Bool :=
  match dropCI (String.toList "chapter") cs with
  | none => false
  | some r =>
    match dropWS1 r with
    | none => false
    | some r2 => startsDigit r2

def isRomanIVX (c : Char) : Bool :=
  c.toLower = 'i' || c.toLower = 'v' || c.toLower = 'x'

/-- `PART\s+[IVX]+` and `Part\s+[IVX]+` (identical under `re.IGNORECASE`). -/
def matchPartRoman (cs : List Char) : Bool :=
  match dropCI (String.toList "part") cs with
  | none => false
  | some r =>
    match dropWS1 r with
    | none => false
    | some r2 =>
      match r2 with
      | [] => false
      | c :: _ => isRomanIVX c

/-- `^\d+\.\s+[A-Z]` — under `re.IGNORECASE` the class `[A-Z]` matches any
ASCII letter. -/
def matchNumberedSection (cs : List Char) : Bool :=
  match cs with
  | [] => false
  | c :: r =>
    c.isDigit &&
      (match r.dropWhile Char.isDigit with
        | '.' :: r3 =>
          (match dropWS1 r3 with
            | some (a :: _) => a.isAlpha
            | some [] => false
            | none => false)
        | _ => false)

/-- `re.search` of a line-anchored pattern with `re.MULTILINE`: the first
position that is a line start (offset 0 or right after a newline) where the
matcher succeeds on the suffix. -/
def searchHeadingAux (m : List Char → Bool) : ℕ → Bool → List Char → Option ℕ
  | _, _, [] => none
  | idx, atStart, c :: rest =>
    if atStart && m (c :: rest) then some idx
    else searchHeadingAux m (idx + 1) (c = '\n') rest

/-- The `chapter_patterns` list of lines 87-93, in source order (patterns 1-2
and 3-4 coincide under `re.IGNORECASE`). -/
def chapterPatterns : List (List Char → Bool) :=
  [matchChapterNum, matchChapterNum, matchPartRoman, matchPartRoman,
    matchNumberedSection]

/-- The `for pattern in chapter_patterns: ... break` loop (lines 95-112):
the first pattern with a search hit wins, yielding its `match.start()`. -/
def firstPatternHit : List (List Char → Bool) → List Char → Option ℕ
  | [], _ => none
  | m :: ms, cs =>
    match searchHeadingAux m 0 true cs with
    | some i => some i
    | none => firstPatternHit ms cs

def headingSearch (cs : List Char) : Option ℕ :=
  firstPatternHit chapterPatterns cs

/-- Python `text.split('\n')`, keeping empty pieces. -/
def splitLines : List Char → List (List Char)
  | [] => [[]]
  | c :: rest =>
    if c = '\n' then [] :: splitLines rest
    else
      match splitLines rest with
      | [] => [[c]]              -- unreachable: the split is never empty
      | t :: ts => (c :: t) :: ts

/-- Python `str.isdigit()` (ASCII): nonempty and all digits. -/
def isAllDigits (cs : List Char) : Bool :=
  !cs.isEmpty && cs.all Char.isDigit

/-- The accumulation loop of `_extract_chapter_title` (lines 131-136). -/
def titleLoop : List (List Char) → List (List Char) → List (List Char)
  | [], acc => acc
  | l :: ls, acc =>
    let s := pyStrip l
    let acc2 := if s ≠ [] ∧ ¬ isAllDigits s then acc ++ [s] else acc
    if acc2.length ≥ 2 then acc2 else titleLoop ls acc2

/-- `PDFProcessor._extract_chapter_title(text, start_pos)` (lines 126-138). -/
def extractChapterTitle (text : List Char) (startPos : ℕ) : List Char :=
  let tl := titleLoop ((splitLines (text.drop startPos)).take 3) []
  if tl = [] then String.toList "Untitled Chapter"
  else List.intercalate [' '] tl

/-- One iteration of the page loop of `detect_chapters` (lines 83-116).
State: the open section (`current_section`) and the closed sections. -/
def detectStep (st : Option BookSection × List BookSection)
    (page : PageContent) : Option BookSection × List BookSection :=
  match headingSearch page.text with
  | some mstart =>
    -- end previous section (end page = current page - 1), open a new one;
    -- the new section immediately receives this page's text (line 116)
    let secs := match st.1 with
      | some cur => st.2 ++ [{ cur with end_page := page.page_number - 1 }]
      | none => st.2
    (some { title := extractChapterTitle page.text mstart,
            start_page := page.page_number,
            end_page := page.page_number,
            content := page.text ++ ['\n'],
            section_type := String.toList "chapter" }, secs)
  | none =>
    match st.1 with
    | some cur =>
      (some { cur with content := cur.content ++ page.text ++ ['\n'] }, st.2)
    | none => (none, st.2)

/-- `PDFProcessor.detect_chapters(pages)` (lines 78-124): fold the page loop,
then close the final open section with `end_page = pages[-1].page_number`. -/
def detectChapters (pages : List PageContent) : List BookSection :=
  let st := pages.foldl detectStep (none, [])
  match st.1, pages.getLast? with
  | some cur, some last => st.2 ++ [{ cur with end_page := last.page_number }]
  | some cur, none => st.2 ++ [cur]  -- unreachable: no page, no open section
  | none, _ => st.2

/-! ## C7 — page ranges of the segmenter -/

/-- The state invariant of the page loop of `detect_chapters`, relative to
an upper bound `bnd` on the page numbers already processed. -/
def DetectInv (bnd : ℤ) (st : Option BookSection × List BookSection) : Prop :=
  (∀ s ∈ st.2, 1 ≤ s.start_page ∧ s.start_page ≤ s.end_page ∧ s.end_page ≤ bnd) ∧
  st.2.Pairwise (fun a b => a.end_page < b.start_page) ∧
  (∀ c, st.1 = some c →
    1 ≤ c.start_page ∧ c.start_page ≤ bnd ∧ ∀ s ∈ st.2, s.end_page < c.start_page)

theorem detectStep_inv {bnd : ℤ} {st : Option BookSection × List BookSection}
    {page : PageContent} (hinv : DetectInv bnd st)
    (hgt : bnd < page.page_number) (hpos : 1 ≤ page.page_number) :
    DetectInv page.page_number (detectStep st page) := by
  obtain ⟨hsecs, hpair, hcur⟩ := hinv
  unfold detectStep
  cases hh : headingSearch page.text with
  | none =>
    cases hc : st.1 with
    | none => exact ⟨fun s hs => by
        obtain ⟨h1, h2, h3⟩ := hsecs s hs
        exact ⟨h1, h2, by (try dsimp only); omega⟩, hpair, by simp⟩
    | some cur =>
      refine ⟨fun s hs => by
        obtain ⟨h1, h2, h3⟩ := hsecs s hs
        exact ⟨h1, h2, by (try dsimp only); omega⟩, hpair, ?_⟩
      intro c hcs
      simp at hcs
      obtain ⟨h1, h2, h3⟩ := hcur cur hc
      rw [← hcs]
      exact ⟨h1, by (try dsimp only); omega, h3⟩
  | some mstart =>
    cases hc : st.1 with
    | none =>
      refine ⟨fun s hs => by
        obtain ⟨h1, h2, h3⟩ := hsecs s hs
        exact ⟨h1, h2, by (try dsimp only); omega⟩, hpair, ?_⟩
      intro c hcs
      simp at hcs
      rw [← hcs]
      refine ⟨hpos, le_refl _, ?_⟩
      intro s hs
      obtain ⟨_, _, h3⟩ := hsecs s hs
      dsimp only
      omega
    | some cur =>
      obtain ⟨hc1, hc2, hc3⟩ := hcur cur hc
      refine ⟨?_, ?_, ?_⟩
      · intro s hs
        rcases List.mem_append.mp hs with h | h
        · obtain ⟨h1, h2, h3⟩ := hsecs s h
          exact ⟨h1, h2, by (try dsimp only); omega⟩
        · rcases List.mem_singleton.mp h with rfl
          simp only
          exact ⟨hc1, by (try dsimp only); omega, by (try dsimp only); omega⟩
      · rw [List.pairwise_append]
        refine ⟨hpair, List.pairwise_singleton _ _, ?_⟩
        intro a ha b hb
        rcases List.mem_singleton.mp hb with rfl
        simpa using hc3 a ha
      · intro c hcs
        simp at hcs
        rw [← hcs]
        refine ⟨hpos, le_refl _, ?_⟩
        intro s hs
        rcases List.mem_append.mp hs with h | h
        · obtain ⟨_, _, h3⟩ := hsecs s h
          dsimp only
          omega
        · rcases List.mem_singleton.mp h with rfl
          dsimp only
          omega

theorem detectFold_inv :
    ∀ (pages : List PageContent) (st : Option BookSection × List BookSection)
      (bnd : ℤ),
      (∀ p ∈ pages, bnd < p.page_number ∧ 1 ≤ p.page_number) →
      pages.Pairwise (fun a b => a.page_number < b.page_number) →
      DetectInv bnd st →
      DetectInv (pages.getLast?.elim bnd (fun p => p.page_number))
        (pages.foldl detectStep st) := by
  intro pages
  induction pages with
  | nil =>
    intro st bnd _ _ hinv
    simpa using hinv
  | cons p rest ih =>
    intro st bnd hlb hasc hinv
    have hp := hlb p (by simp)
    have hstep := detectStep_inv hinv hp.1 hp.2
    have hrestlb : ∀ q ∈ rest, p.page_number < q.page_number ∧ 1 ≤ q.page_number :=
      fun q hq => ⟨(List.pairwise_cons.mp hasc).1 q hq, (hlb q (by simp [hq])).2⟩
    have hrestasc := (List.pairwise_cons.mp hasc).2
    have hmain := ih (detectStep st p) p.page_number hrestlb hrestasc hstep
    rw [List.foldl_cons]
    cases rest with
    | nil => simpa using hmain
    | cons q rest2 => simpa [List.getLast?_cons_cons] using hmain

/-- C7: when the input pages carry strictly ascending 1-based page numbers,
every section produced by `detect_chapters` has `start_page ≤ end_page`,
and the inclusive page ranges are strictly ascending and pairwise
non-overlapping in output order. -/
theorem detectChapters_ranges (pages : List PageContent)
    (hasc : pages.Pairwise (fun a b => a.page_number < b.page_number))
    (hpos : ∀ p ∈ pages, 1 ≤ p.page_number) :
    (∀ s ∈ detectChapters pages, 1 ≤ s.start_page ∧ s.start_page ≤ s.end_page) ∧
    (detectChapters pages).Pairwise (fun a b => a.end_page < b.start_page) := by
  have hinv0 : DetectInv 0 (none, ([] : List BookSection)) := by
    refine ⟨by simp, by simp, by simp⟩
  have hlb : ∀ p ∈ pages, (0 : ℤ) < p.page_number ∧ 1 ≤ p.page_number :=
    fun p hp => ⟨by have := hpos p hp; omega, hpos p hp⟩
  have hmain := detectFold_inv pages (none, []) 0 hlb hasc hinv0
  obtain ⟨hsecs, hpair, hcur⟩ := hmain
  cases hc : (pages.foldl detectStep (none, [])).1 with
  | none =>
    have hred : detectChapters pages = (pages.foldl detectStep (none, [])).2 := by
      unfold detectChapters
      simp only [hc]
    rw [hred]
    exact ⟨fun s hs => ⟨(hsecs s hs).1, (hsecs s hs).2.1⟩, hpair⟩
  | some cur =>
    obtain ⟨hc1, hc2, hc3⟩ := hcur cur hc
    cases hl : pages.getLast? with
    | none =>
      -- unreachable: no pages means the fold is the initial state
      exfalso
      rw [List.getLast?_eq_none_iff] at hl
      subst hl
      simp at hc
    | some last =>
      rw [hl] at hc2
      simp only [Option.elim] at hc2
      have hred : detectChapters pages = (pages.foldl detectStep (none, [])).2 ++
          [{ cur with end_page := last.page_number }] := by
        unfold detectChapters
        simp only [hc, hl]
      rw [hred]
      constructor
      · intro s hs
        rcases List.mem_append.mp hs with h | h
        · exact ⟨(hsecs s h).1, (hsecs s h).2.1⟩
        · rcases List.mem_singleton.mp h with rfl
          exact ⟨hc1, hc2⟩
      · rw [List.pairwise_append]
        refine ⟨hpair, List.pairwise_singleton _ _, ?_⟩
        intro a ha b hb
        rcases List.mem_singleton.mp hb with rfl
        simpa using hc3 a ha

/-- Witness for `detectChapters_ranges` at a concrete three-page input. -/
theorem detectChapters_ranges_witness :
    (∀ s ∈ detectChapters
        [⟨1, String.toList "Chapter 1\nIntro", 2, false, []⟩,
         ⟨2, String.toList "plain text", 2, false, []⟩,
         ⟨3, String.toList "Chapter 2\nNext", 2, false, []⟩],
      1 ≤ s.start_page ∧ s.start_page ≤ s.end_page) ∧
    (detectChapters
        [⟨1, String.toList "Chapter 1\nIntro", 2, false, []⟩,
         ⟨2, String.toList "plain text", 2, false, []⟩,
         ⟨3, String.toList "Chapter 2\nNext", 2, false, []⟩]).Pairwise
      (fun a b => a.end_page < b.start_page) :=
  detectChapters_ranges _ (by decide) (by decide)

/-! ## C10 — content before the first heading is excluded -/

/-- All text the segmenter has accumulated so far: contents of the closed
sections followed by the content of the open section. -/
def contentJoin (st : Option BookSection × List BookSection) : List Char :=
  (st.2.map (fun s => s.content)).join ++ st.1.elim [] (fun c => c.content)

theorem detectStep_skip {secs : List BookSection} {page : PageContent}
    (h : headingSearch page.text = none) :
    detectStep (none, secs) page = (none, secs) := by
  unfold detectStep
  rw [h]

theorem detectFold_skip :
    ∀ (pages : List PageContent) (secs : List BookSection),
      (∀ p ∈ pages, headingSearch p.text = none) →
      pages.foldl detectStep (none, secs) = (none, secs) := by
  intro pages
  induction pages with
  | nil => intro secs _; rfl
  | cons p rest ih =>
    intro secs hall
    rw [List.foldl_cons, detectStep_skip (hall p (by simp))]
    exact ih secs (fun q hq => hall q (by simp [hq]))

theorem detectStep_some {st : Option BookSection × List BookSection}
    {page : PageContent}
    (h : st.1.isSome ∨ (headingSearch page.text).isSome) :
    (detectStep st page).1.isSome ∧
      contentJoin (detectStep st page) = contentJoin st ++ page.text ++ ['\n'] := by
  unfold detectStep contentJoin
  cases hh : headingSearch page.text with
  | some mstart =>
    cases hc : st.1 with
    | none => simp
    | some cur => simp
  | none =>
    cases hc : st.1 with
    | none =>
      exfalso
      rcases h with h | h
      · rw [hc] at h; simp at h
      · rw [hh] at h; simp at h
    | some cur => simp

theorem detectFold_some :
    ∀ (pages : List PageContent) (st : Option BookSection × List BookSection),
      st.1.isSome →
      (pages.foldl detectStep st).1.isSome ∧
        contentJoin (pages.foldl detectStep st) =
          contentJoin st ++ (pages.map (fun p => p.text ++ ['\n'])).join := by
  intro pages
  induction pages with
  | nil => intro st hsome; simpa using hsome
  | cons p rest ih =>
    intro st hsome
    have hstep := @detectStep_some st p (Or.inl hsome)
    have hrec := ih (detectStep st p) hstep.1
    rw [List.foldl_cons]
    refine ⟨hrec.1, ?_⟩
    rw [hrec.2, hstep.2]
    simp

theorem detectChapters_contentJoin (pages : List PageContent) :
    ((detectChapters pages).map (fun s => s.content)).join =
      contentJoin (pages.foldl detectStep (none, [])) := by
  unfold detectChapters contentJoin
  cases hc : (pages.foldl detectStep (none, [])).1 with
  | none => simp [hc]
  | some cur =>
    cases hl : pages.getLast? with
    | none => simp [hc, hl]
    | some last => simp [hc, hl]

/-- The state invariant used for the page-range half of C10. -/
def StartsGE (q : ℤ) (st : Option BookSection × List BookSection) : Prop :=
  (∀ s ∈ st.2, q ≤ s.start_page) ∧ (∀ c, st.1 = some c → q ≤ c.start_page)

theorem detectStep_startsGE {q : ℤ} {st : Option BookSection × List BookSection}
    {page : PageContent} (hst : StartsGE q st) (hq : q ≤ page.page_number) :
    StartsGE q (detectStep st page) := by
  obtain ⟨h2, h1⟩ := hst
  unfold detectStep
  cases hh : headingSearch page.text with
  | some mstart =>
    cases hc : st.1 with
    | none =>
      refine ⟨h2, ?_⟩
      intro c hcs
      simp at hcs
      rw [← hcs]
      exact hq
    | some cur =>
      refine ⟨?_, ?_⟩
      · intro s hs
        rcases List.mem_append.mp hs with h | h
        · exact h2 s h
        · rcases List.mem_singleton.mp h with rfl
          exact h1 cur hc
      · intro c hcs
        simp at hcs
        rw [← hcs]
        exact hq
  | none =>
    cases hc : st.1 with
    | none => exact ⟨h2, by simp⟩
    | some cur =>
      refine ⟨h2, ?_⟩
      intro c hcs
      simp at hcs
      rw [← hcs]
      exact h1 cur hc

theorem detectFold_startsGE :
    ∀ (pages : List PageContent) (st : Option BookSection × List BookSection)
      (q : ℤ),
      (∀ p ∈ pages, q ≤ p.page_number) → StartsGE q st →
      StartsGE q (pages.foldl detectStep st) := by
  intro pages
  induction pages with
  | nil => intro st q _ hst; simpa using hst
  | cons p rest ih =>
    intro st q hq hst
    rw [List.foldl_cons]
    exact ih _ q (fun r hr => hq r (by simp [hr]))
      (detectStep_startsGE hst (hq p (by simp)))

theorem detectChapters_startsGE {q : ℤ} (pages : List PageContent)
    (hst : StartsGE q (pages.foldl detectStep (none, []))) :
    ∀ s ∈ detectChapters pages, q ≤ s.start_page := by
  intro s hs
  unfold detectChapters at hs
  obtain ⟨h2, h1⟩ := hst
  revert hs
  cases hc : (pages.foldl detectStep (none, [])).1 with
  | none =>
    simp only [hc]
    intro hs
    exact h2 s hs
  | some cur =>
    cases hl : pages.getLast? with
    | none =>
      simp only [hc, hl]
      intro hs
      rcases List.mem_append.mp hs with h | h
      · exact h2 s h
      · rcases List.mem_singleton.mp h with rfl
        exact h1 _ hc
    | some last =>
      simp only [hc, hl]
      intro hs
      rcases List.mem_append.mp hs with h | h
      · exact h2 s h
      · rcases List.mem_singleton.mp h with rfl
        exact h1 cur hc

/-- C10: pages preceding the first page on which a heading pattern matches
contribute to no section.  First half (for every input): the concatenated
section contents equal the concatenation of `text + '\n'` over exactly the
pages from the first heading match onward.  Second half (for ascending page
numbers): every section's page range starts at or after the first matching
page, strictly past every earlier page. -/
theorem detectChapters_preamble (pages : List PageContent) :
    (((detectChapters pages).map (fun s => s.content)).join =
      ((pages.dropWhile (fun p => (headingSearch p.text).isNone)).map
        (fun p => p.text ++ ['\n'])).join) ∧
    (pages.Pairwise (fun a b => a.page_number < b.page_number) →
      ∀ s ∈ detectChapters pages,
        ∀ p ∈ pages.takeWhile (fun p => (headingSearch p.text).isNone),
          p.page_number < s.start_page) := by
  have hsplit := List.takeWhile_append_dropWhile
    (p := fun p : PageContent => (headingSearch p.text).isNone) (l := pages)
  have hpre : ∀ p ∈ pages.takeWhile
      (fun p => (headingSearch p.text).isNone), headingSearch p.text = none := by
    intro p hp
    have := List.mem_takeWhile_imp hp
    simpa using this
  have hfold : pages.foldl detectStep (none, []) =
      (pages.dropWhile (fun p => (headingSearch p.text).isNone)).foldl
        detectStep (none, []) := by
    conv_lhs => rw [← hsplit]
    rw [List.foldl_append, detectFold_skip _ [] hpre]
  constructor
  · rw [detectChapters_contentJoin, hfold]
    cases hpost : pages.dropWhile (fun p => (headingSearch p.text).isNone) with
    | nil => simp [contentJoin]
    | cons p0 rest =>
      have hp0 : (headingSearch p0.text).isSome := by
        have hfalse := head_dropWhile_false
          (fun p : PageContent => (headingSearch p.text).isNone)
          (by rw [hpost]; rfl)
        simp only at hfalse
        cases hh0 : headingSearch p0.text with
        | none => rw [hh0] at hfalse; simp at hfalse
        | some m => rfl
      rw [List.foldl_cons]
      have hstep := @detectStep_some (none, []) p0 (Or.inr hp0)
      have hrec := detectFold_some rest _ hstep.1
      rw [hrec.2, hstep.2]
      simp [contentJoin]
  · intro hasc s hs p hp
    cases hpost : pages.dropWhile (fun p => (headingSearch p.text).isNone) with
    | nil =>
      exfalso
      have hnil : detectChapters pages = [] := by
        unfold detectChapters
        rw [hfold, hpost]
        simp
      rw [hnil] at hs
      simp at hs
    | cons p0 rest =>
      have hq : ∀ r ∈ pages.dropWhile (fun p => (headingSearch p.text).isNone),
          p0.page_number ≤ r.page_number := by
        intro r hr
        rw [hpost] at hr
        rcases List.mem_cons.mp hr with rfl | hr
        · exact le_refl _
        · have hpd : (pages.dropWhile
              (fun p => (headingSearch p.text).isNone)).Pairwise
              (fun a b => a.page_number < b.page_number) :=
            hasc.sublist (List.dropWhile_sublist _)
          rw [hpost] at hpd
          exact le_of_lt ((List.pairwise_cons.mp hpd).1 r hr)
      have hge : StartsGE p0.page_number (pages.foldl detectStep (none, [])) := by
        rw [hfold]
        exact detectFold_startsGE _ _ _ hq ⟨by simp, by simp⟩
      have hs2 := detectChapters_startsGE pages hge s hs
      have hlt : p.page_number < p0.page_number := by
        have hcross := (List.pairwise_append.mp (hsplit ▸ hasc)).2.2
        exact hcross p hp p0 (by rw [hpost]; simp)
      omega

/-- Witness for `detectChapters_preamble` at a concrete input with one page
of front matter before the first heading. -/
theorem detectChapters_preamble_witness :
    ((((detectChapters
        [⟨1, String.toList "front matter", 2, false, []⟩,
         ⟨2, String.toList "Chapter 1\nBody", 2, false, []⟩]).map
          (fun s => s.content)).join =
      (([⟨1, String.toList "front matter", 2, false, []⟩,
         ⟨2, String.toList "Chapter 1\nBody", 2, false, []⟩].dropWhile
          (fun p : PageContent => (headingSearch p.text).isNone)).map
        (fun p => p.text ++ ['\n'])).join)) ∧
    (∀ s ∈ detectChapters
        [⟨1, String.toList "front matter", 2, false, []⟩,
         ⟨2, String.toList "Chapter 1\nBody", 2, false, []⟩],
      ∀ p ∈ [⟨1, String.toList "front matter", 2, false, []⟩,
         (⟨2, String.toList "Chapter 1\nBody", 2, false, []⟩ : PageContent)].takeWhile
          (fun p : PageContent => (headingSearch p.text).isNone),
        p.page_number < s.start_page) :=
  ⟨(detectChapters_preamble _).1,
    (detectChapters_preamble _).2 (by decide)⟩

/-! ## Audio Assembler — `AudioProcessor.combine_audio_chunks`

Translation of `src/backend/audio_processor.py`, lines 16-23 and 47-82.
Decoded audio is modelled as an abstract sample list with one sample per
millisecond, so `len` in milliseconds is `List.length`;
`AudioSegment.from_file` on a chunk's byte payload is the identity on that
abstract list, and `+` on segments is concatenation. -/

/-- `AudioChunk` of `audio_processor.py` (lines 16-23). -/
structure AudioChunk where
  audio_data : List ℤ
  text : List Char
  chapter : Option (List Char) := none
  start_time : Option ℚ := none
  duration : Option ℚ := none
deriving DecidableEq

/-- Python truthiness of an `Optional[str]`: `None` and `""` are falsy. -/
def pyTruthyStr : Option (List Char) → Bool
  | none => false
  | some s => !s.isEmpty

/-- Python `int()` on a float/rational: truncation toward zero (written on
the normalized numerator/denominator so that it evaluates by kernel
reduction). -/
def pyInt (q : ℚ) : ℤ :=
  if 0 ≤ q.num then q.num / (q.den : ℤ) else -((-q.num) / (q.den : ℤ))

/-- `AudioSegment.silent(duration=int(chapter_pause_duration * 1000))`:
silence of the truncated millisecond count (empty for negative values). -/
def pauseSegment (pause : ℚ) : List ℤ :=
  List.replicate (pyInt (pause * 1000)).toNat 0

/-- The pause condition of lines 70-73: this chunk is not the last, both
chapter labels are truthy, and they differ. -/
def chapterTransition (a b : AudioChunk) : Bool :=
  pyTruthyStr a.chapter && pyTruthyStr b.chapter && decide (a.chapter ≠ b.chapter)

/-- `AudioProcessor.combine_audio_chunks(chunks, chapter_pause_duration)`
(lines 47-82), with the progress callback omitted (it only reports). -/
def combineAudioChunks : List AudioChunk → ℚ → List ℤ
  | [], _ => []
  | [c], _ => c.audio_data
  | c :: c2 :: rest, pause =>
    c.audio_data ++
      (if chapterTransition c c2 then pauseSegment pause else []) ++
      combineAudioChunks (c2 :: rest) pause

/-- Number of adjacent pairs at which the code inserts a pause. -/
def countTransitions : List AudioChunk → ℕ
  | [] => 0
  | [_] => 0
  | c :: c2 :: rest =>
    (if chapterTransition c c2 then 1 else 0) + countTransitions (c2 :: rest)

/-- Number of adjacent pairs whose chapter labels differ, with no
truthiness requirement.  This follows the claim wording ("every chunk whose
chapter label differs from the next chunk's chapter label") and is compared
against the implementation in the counterexample. -/
def countLabelChanges : List AudioChunk → ℕ
  | [] => 0
  | [_] => 0
  | c :: c2 :: rest =>
    (if c.chapter ≠ c2.chapter then 1 else 0) + countLabelChanges (c2 :: rest)

/-- C8 (amended): the assembled duration is the sum of per-chunk durations
plus `⌊chapterPauseSeconds·1000⌋` ms for every adjacent pair whose chapter
labels are both non-empty and differ; pairs in which a label is `None` or
empty get no pause. -/
theorem combineAudioChunks_duration (chunks : List AudioChunk) (pause : ℚ) :
    (combineAudioChunks chunks pause).length =
      (chunks.map (fun c => c.audio_data.length)).sum +
        (pyInt (pause * 1000)).toNat * countTransitions chunks := by
  induction chunks with
  | nil => simp [combineAudioChunks, countTransitions]
  | cons c rest ih =>
    cases rest with
    | nil => simp [combineAudioChunks, countTransitions]
    | cons c2 rest2 =>
      by_cases ht : chapterTransition c c2 = true
      · simp [combineAudioChunks, countTransitions, ht, ih, pauseSegment]
        ring
      · simp [combineAudioChunks, countTransitions, ht, ih]
        ring

/-- C8 (counterexample): a chunk with `chapter = None` followed by a chunk
with `chapter = "A"` has differing labels, yet the code inserts no pause:
with a 2-second pause the claim predicts `1 + 1 + 2000` ms but the code
produces `1 + 1` ms. -/
theorem combineAudioChunks_cex :
    (combineAudioChunks
      [{ audio_data := [0], text := [] },
       { audio_data := [0], text := [], chapter := some (String.toList "A") }]
      2).length ≠
    (([{ audio_data := [0], text := [] },
       { audio_data := [0], text := [], chapter := some (String.toList "A") }]
        : List AudioChunk).map (fun c => c.audio_data.length)).sum +
      (pyInt (2 * 1000)).toNat *
        countLabelChanges
          [{ audio_data := [0], text := [] },
           { audio_data := [0], text := [], chapter := some (String.toList "A") }] := by
  norm_num [combineAudioChunks, countLabelChanges, chapterTransition, pyTruthyStr,
    pauseSegment, pyInt]
  simp

/-! ## Content Classifier — `ContentFilter`

Translation of `src/backend/content_filter.py`.  The keyword sets of lines
23-49 become lists (scores sum over them, so iteration order is
irrelevant); `re.findall(r'\b..\b', text)` becomes a left-to-right
non-overlapping scan with `\b` word boundaries. -/

/-- `FilterResult` (lines 12-17). -/
structure FilterResult where
  should_skip : Bool
  reason : List Char
  confidence : ℚ
deriving DecidableEq

/-- The filter-flag entries read from `app.config` via `config.get(key,
True)` (lines 75-105). -/
structure FilterConfig where
  SKIP_COPYRIGHT : Bool
  SKIP_ACKNOWLEDGMENTS : Bool
  SKIP_TOC : Bool
  SKIP_INDEX : Bool
  SKIP_BIBLIOGRAPHY : Bool
deriving DecidableEq

def copyrightKeywords : List (List Char) :=
  ["copyright", "published", "isbn", "edition", "printing", "publisher",
   "all rights reserved", "no part of this publication", "library of congress",
   "cataloging-in-publication", "printed in", "first published"].map String.toList

def acknowledgmentKeywords : List (List Char) :=
  ["acknowledgment", "acknowledgement", "thanks to", "grateful to",
   "dedication", "dedicated to", "in memory of", "special thanks",
   "would like to thank", "gratitude", "appreciation"].map String.toList

def indexKeywords : List (List Char) :=
  ["index", "bibliography", "references", "works cited", "further reading",
   "suggested reading", "notes", "endnotes", "footnotes"].map String.toList

def promotionalKeywords : List (List Char) :=
  ["praise for", "reviews", "also by", "about the author", "other books",
   "from the reviews", "acclaim for", "what readers are saying",
   "testimonials", "endorsements"].map String.toList

def frontIndicators : List (List Char) :=
  ["copyright", "published", "isbn", "edition"].map String.toList

/-- Does `kw` match at the head of `cs` with `\b` boundaries on both sides?
`prev` is the character just before the current position (`none` at the
start of the text). -/
def kwMatchHere (kw : List Char) (prev : Option Char) (cs : List Char) : Bool :=
  kw.isPrefixOf cs &&
    (match prev, kw.head? with
      | _, none => true
      | none, some k0 => isWordChar k0
      | some pc, some k0 => isWordChar k0 != isWordChar pc) &&
    (match kw.getLast?, cs.drop kw.length with
      | none, _ => true
      | some kl, [] => isWordChar kl
      | some kl, n :: _ => isWordChar kl != isWordChar n)

/-- Left-to-right non-overlapping scan of `re.findall`.  The fuel is the
text length; every step consumes at least one character, so it never runs
out for a nonempty keyword. -/
def countOccAux (kw : List Char) : ℕ → Option Char → List Char → ℕ
  | 0, _, _ => 0
  | _ + 1, _, [] => 0
  | fuel + 1, prev, c :: rest =>
    if kwMatchHere kw prev (c :: rest) then
      1 + countOccAux kw fuel kw.getLast? (rest.drop (kw.length - 1))
    else countOccAux kw fuel (some c) rest

/-- `len(re.findall(r'\b' + re.escape(keyword) + r'\b', text))` for a
nonempty keyword. -/
def countOcc (kw text : List Char) : ℕ :=
  if kw.isEmpty then 0 else countOccAux kw text.length none text

/-- `ContentFilter._calculate_keyword_score(text, keywords)` (lines
111-123). -/
def keywordScore (text : List Char) (kws : List (List Char)) : ℚ :=
  let wordCount := (pySplit text).length
  if wordCount = 0 then 0
  else min (((kws.map (fun k => countOcc k text)).sum : ℚ) /
    ((wordCount : ℚ) / 100)) 1

def startsAlpha : List Char → Bool
  | [] => false
  | c :: _ => c.isAlpha

/-- `chapter\s+\d+.*\d+$` searched anywhere in a (newline-free) line: at
some position, `chapter` then whitespace then a suffix that starts with a
digit, ends with a digit, and has length at least two. -/
def tocChapterAt (cs : List Char) : Bool :=
  match dropCI (String.toList "chapter") cs with
  | none => false
  | some r =>
    match dropWS1 r with
    | none => false
    | some r2 =>
      startsDigit r2 && decide (2 ≤ r2.length) &&
        (match r2.getLast? with
          | some l => l.isDigit
          | none => false)

/-- `part\s+[ivx]+.*\d+$` searched anywhere in a line. -/
def tocPartAt (cs : List Char) : Bool :=
  match dropCI (String.toList "part") cs with
  | none => false
  | some r =>
    match dropWS1 r with
    | none => false
    | some r2 =>
      (match r2 with
        | [] => false
        | c :: _ => isRomanIVX c) && decide (2 ≤ r2.length) &&
        (match r2.getLast? with
          | some l => l.isDigit
          | none => false)

/-- Scan a line for a match of an unanchored pattern at any position. -/
def anyPosMatch (m : List Char → Bool) : List Char → Bool
  | [] => false
  | c :: rest => m (c :: rest) || anyPosMatch m rest

/-- `^\d+\s+[A-Z].*\d+$` (anchored): digits, whitespace, a letter, at least
one more character, and a final digit. -/
def tocNumberedLine (line : List Char) : Bool :=
  match line with
  | [] => false
  | c :: r =>
    c.isDigit &&
      (match dropWS1 (r.dropWhile Char.isDigit) with
        | none => false
        | some r2 =>
          startsAlpha r2 &&
            (match r2 with
              | [] => false
              | _ :: r3 =>
                match r3.getLast? with
                | some l => l.isDigit
                | none => false))

/-- `\.{3,}`: three consecutive dots somewhere in the line. -/
def hasThreeDots : List Char → Bool
  | [] => false
  | '.' :: '.' :: '.' :: _ => true
  | _ :: rest => hasThreeDots rest

/-- The `for pattern in patterns: ... break` test of lines 138-143 on one
stripped line. -/
def tocLineMatch (line : List Char) : Bool :=
  anyPosMatch tocChapterAt line || anyPosMatch tocPartAt line ||
    tocNumberedLine line || hasThreeDots line

/-- `ContentFilter._calculate_toc_score(text)` (lines 125-148). -/
def tocScore (text : List Char) : ℚ :=
  let lines := splitLines text
  let patternMatches :=
    (lines.map (fun l => if tocLineMatch (pyStrip l) then (1 : ℕ) else 0)).sum
  if 0 < lines.length then
    min ((patternMatches : ℚ) / (lines.length : ℚ) * 2) 1
  else 0

/-- `ContentFilter._analyze_page_position(page, text)` (lines 150-159). -/
def positionScore (pageNumber : ℤ) (text : List Char) : ℚ :=
  if pageNumber ≤ 5 then min (keywordScore text frontIndicators * 2) 1
  else 0

/-- `ContentFilter.analyze_page(page, config)` (lines 66-109): the rules in
source order, first hit wins. -/
def analyzePage (page : PageContent) (config : FilterConfig) : FilterResult :=
  let text := page.text.map Char.toLower
  if page.word_count < 50 then
    ⟨true, String.toList "Too few words", 9/10⟩
  else if config.SKIP_COPYRIGHT = true ∧
      keywordScore text copyrightKeywords > 3/10 then
    ⟨true, String.toList "Copyright/publication page",
      keywordScore text copyrightKeywords⟩
  else if config.SKIP_ACKNOWLEDGMENTS = true ∧
      keywordScore text acknowledgmentKeywords > 1/5 then
    ⟨true, String.toList "Acknowledgments/dedication",
      keywordScore text acknowledgmentKeywords⟩
  else if config.SKIP_TOC = true ∧ tocScore text > 2/5 then
    ⟨true, String.toList "Table of contents", tocScore text⟩
  else if config.SKIP_INDEX = true ∧ keywordScore text indexKeywords > 3/10 then
    ⟨true, String.toList "Index/bibliography", keywordScore text indexKeywords⟩
  else if config.SKIP_BIBLIOGRAPHY = true ∧
      keywordScore text promotionalKeywords > 3/10 then
    ⟨true, String.toList "Promotional content",
      keywordScore text promotionalKeywords⟩
  else if positionScore page.page_number text > 7/10 then
    ⟨true, String.toList "Likely metadata page",
      positionScore page.page_number text⟩
  else ⟨false, String.toList "Main content", 0⟩

/-- `ContentFilter.filter_pages(pages, config)` (lines 51-64). -/
def filterPages (pages : List PageContent) (config : FilterConfig) :
    List PageContent :=
  pages.filter (fun p => !(analyzePage p config).should_skip)

/-- C9: a page with fewer than 50 words is dropped with reason "Too few
words" and confidence 0.9, whatever the filter configuration — the rule is
evaluated before every other rule. -/
theorem analyzePage_too_few_words (page : PageContent) (config : FilterConfig)
    (h : page.word_count < 50) :
    analyzePage page config =
      ⟨true, String.toList "Too few words", 9/10⟩ := by
  unfold analyzePage
  rw [if_pos h]

/-- Witness for `analyzePage_too_few_words`: a 30-word page with every
filter category disabled is still dropped by rule 1. -/
theorem analyzePage_too_few_words_witness :
    (⟨4, String.toList "short page", 30, false, []⟩ : PageContent).word_count < 50 ∧
    analyzePage ⟨4, String.toList "short page", 30, false, []⟩
        ⟨false, false, false, false, false⟩ =
      ⟨true, String.toList "Too few words", 9/10⟩ :=
  ⟨by decide,
    analyzePage_too_few_words ⟨4, String.toList "short page", 30, false, []⟩
      ⟨false, false, false, false, false⟩ (by decide)⟩

/-! ### Section-level filtering — `filter_sections` (lines 161-214) -/

/-- Python substring containment (`needle in haystack`). -/
def containsSub (needle : List Char) : List Char → Bool
  | [] => needle.isEmpty
  | c :: rest => needle.isPrefixOf (c :: rest) || containsSub needle rest

/-- `ContentFilter._should_keep_section(section, config)` (lines 175-197). -/
def shouldKeepSection (sec : BookSection) (config : FilterConfig) : Bool :=
  let titleLower := sec.title.map Char.toLower
  let skipTitles :=
    (if config.SKIP_ACKNOWLEDGMENTS then
      ["acknowledgment", "dedication", "thanks"].map String.toList else []) ++
    (if config.SKIP_TOC then
      ["contents", "table of contents"].map String.toList else []) ++
    (if config.SKIP_INDEX then
      ["index", "bibliography", "references"].map String.toList else [])
  if skipTitles.any (fun t => containsSub t titleLower) then false
  else if (pySplit sec.content).length < 100 then false
  else true

/-- `re.sub(r'\s+', ' ', content)`: collapse every whitespace run to one
space. -/
def collapseWS : List Char → List Char
  | [] => []
  | c :: rest =>
    if isPySpace c then
      match rest with
      | [] => ' ' :: collapseWS rest
      | d :: _ =>
        if isPySpace d then collapseWS rest else ' ' :: collapseWS rest
    else c :: collapseWS rest

/-- The whitespace run after the digits of a `\n\s*\d+\s*\n` candidate must
contain a newline; the literal `\n` of the pattern is the last newline of
that run (regex backtracking picks the longest `\s*`).  Returns the
remainder after the match, or `none`. -/
def pageNumTail (r2 : List Char) : Option (List Char) :=
  let wsr := r2.takeWhile isPySpace
  if wsr.contains '\n' then
    some ((wsr.reverse.takeWhile (fun c => c ≠ '\n')).reverse
      ++ r2.drop wsr.length)
  else none

/-- Try to match `\n\s*\d+\s*\n` at the head of `cs`; on success return the
remainder after the matched region. -/
def pageNumHere : List Char → Option (List Char)
  | '\n' :: r =>
    let r1 := r.dropWhile isPySpace
    if startsDigit r1 then pageNumTail (r1.dropWhile Char.isDigit)
    else none
  | _ => none

/-- `re.sub(r'\n\s*\d+\s*\n', '\n', content)`: left-to-right non-overlapping
replacement (fuel = text length; each step consumes at least one
character). -/
def removePageNums : ℕ → List Char → List Char
  | 0, _ => []
  | _ + 1, [] => []
  | fuel + 1, c :: rest =>
    match pageNumHere (c :: rest) with
    | some rem => '\n' :: removePageNums fuel rem
    | none => c :: removePageNums fuel rest

/-- `re.sub(r'\[.*?\]', '', content)`: remove each bracketed stretch up to
the nearest `]` on the same line (`.` does not match newlines). -/
def removeBrackets : ℕ → List Char → List Char
  | 0, _ => []
  | _ + 1, [] => []
  | fuel + 1, c :: rest =>
    if c = '[' then
      let seg := rest.takeWhile (fun d => d ≠ ']' && d ≠ '\n')
      match rest.drop seg.length with
      | ']' :: rem => removeBrackets fuel rem
      | _ => c :: removeBrackets fuel rest
    else c :: removeBrackets fuel rest

/-- `re.sub(r'\(page \d+\)', '', content)` (case-sensitive literal). -/
def removePageRefs : ℕ → List Char → List Char
  | 0, _ => []
  | _ + 1, [] => []
  | fuel + 1, c :: rest =>
    if c = '(' then
      if (String.toList "page ").isPrefixOf rest then
        let r1 := rest.drop 5
        if startsDigit r1 then
          match r1.dropWhile Char.isDigit with
          | ')' :: rem => removePageRefs fuel rem
          | _ => c :: removePageRefs fuel rest
        else c :: removePageRefs fuel rest
      else c :: removePageRefs fuel rest
    else c :: removePageRefs fuel rest

def startsSentDelim : List Char → Bool
  | [] => false
  | c :: _ => isSentDelim c

/-- `re.sub(r'([.!?])\s*([.!?])+', r'\1', content)`: a punctuation mark,
optional whitespace, then a run of punctuation collapses to the first
mark. -/
def collapseRepeatPunct : ℕ → List Char → List Char
  | 0, _ => []
  | _ + 1, [] => []
  | fuel + 1, c :: rest =>
    if isSentDelim c then
      let r1 := rest.dropWhile isPySpace
      if startsSentDelim r1 then
        c :: collapseRepeatPunct fuel (r1.dropWhile isSentDelim)
      else c :: collapseRepeatPunct fuel rest
    else c :: collapseRepeatPunct fuel rest

/-- `ContentFilter._clean_section_content(content)` (lines 199-214): the
four `re.sub` passes in source order, then `strip()`. -/
def cleanSectionContent (content : List Char) : List Char :=
  let c1 := collapseWS content
  let c2 := removePageNums c1.length c1
  let c3 := removeBrackets c2.length c2
  let c4 := removePageRefs c3.length c3
  let c5 := collapseRepeatPunct c4.length c4
  pyStrip c5

/-- `ContentFilter.filter_sections(sections, config)` (lines 161-173): keep
the sections passing `_should_keep_section`, with cleaned content. -/
def filterSections (sections : List BookSection) (config : FilterConfig) :
    List BookSection :=
  (sections.filter (fun s => shouldKeepSection s config)).map
    (fun s => { s with content := cleanSectionContent s.content })

/-! ## Rate limiter — `_wait_for_rate_limit` of `tts_services.py`

Translation of lines 120-133 (OpenAI, `requests_per_minute = 50`) and
239-252 (Google, 100); the two method bodies are identical, so the model
takes the cap as a parameter.  `time.time()` is modelled as a rational;
`await asyncio.sleep(d)` advances the clock by exactly `d`.  The backend
request itself is issued immediately after `_wait_for_rate_limit` returns,
so its wall-clock time is the entry time plus the sleep. -/

/-- One call: prune entries older than 60 s, sleep if at the cap, append
the (pre-sleep!) entry time.  Returns the new `request_times` and the time
at which the backend request is actually issued. -/
def rlStep (cap : ℕ) (times : List ℚ) (now : ℚ) : List ℚ × ℚ :=
  let times2 := times.filter (fun t => now - t < 60)
  let wait : ℚ :=
    if cap ≤ times2.length then
      match times2.head? with
      | some t0 => if 0 < 60 - (now - t0) then 60 - (now - t0) else 0
      | none => 0
    else 0
  (times2 ++ [now], now + wait)

/-- Run a sequence of calls whose `time.time()` entry values are
`entries`; returns the final recorded list and the actual request times. -/
def rlRun (cap : ℕ) : List ℚ → List ℚ → List ℚ × List ℚ
  | times, [] => (times, [])
  | times, e :: es =>
    let r := rlStep cap times e
    let rest := rlRun cap r.1 es
    (rest.1, r.2 :: rest.2)

/-- A trace is valid for a single caller when each entry time is at or
after the completion of the previous call (calls are sequential). -/
def rlValid (cap : ℕ) : List ℚ → ℚ → List ℚ → Bool
  | _, _, [] => true
  | times, prevDone, e :: es =>
    decide (prevDone ≤ e) &&
      rlValid cap (rlStep cap times e).1 (rlStep cap times e).2 es

/-- Number of request times inside the half-open 60-second window
`(a, a + 60]`. -/
def windowCount (ts : List ℚ) (a : ℚ) : ℕ :=
  (ts.filter (fun t => decide (a < t) && decide (t ≤ a + 60))).length

/-- C6 (violation): a valid sequential trace against the OpenAI limiter
(cap 50) in which 51 requests fall inside the rolling 60-second window
`(1, 61]`.  The limiter appends the pre-sleep entry time, so after a long
sleep the stale record ages out of the window 60 seconds after the *entry*
rather than 60 seconds after the actual request: 50 requests at time 0, one
entered at 1 (slept until 60), 49 admitted at 60, and one entered at 60
(slept until 61) yield actual requests at 60 ×50 and 61. -/
theorem rateLimiter_window_violation :
    rlValid 50 [] 0
        (List.replicate 50 (0 : ℚ) ++ [1] ++ List.replicate 49 60 ++ [60]) = true ∧
    windowCount
        (rlRun 50 []
          (List.replicate 50 (0 : ℚ) ++ [1] ++ List.replicate 49 60 ++ [60])).2
        1 = 51 := by
  constructor
  · set_option maxRecDepth 10000 in
    norm_num [rlValid, rlStep, List.replicate, List.filter]
  · set_option maxRecDepth 10000 in
    norm_num [rlRun, rlStep, windowCount, List.replicate, List.filter]

/-! ## Job Supervisor — `process_conversion` of `app.py` (lines 243-436)

The supervisor is modelled as a deterministic function of an environment:

* `pages` — the page list `extract_text_from_pdf` returns when the call
  succeeds (the same file is re-read on every pipeline attempt);
* `extractErr a` — the error raised by the extraction call on attempt `a`
  (`none` = success): extraction is the pipeline's IO boundary;
* `synthErr k` — the `response.error` of the `k`-th synthesis call overall
  (the TTS services catch their own exceptions and surface them this way);
* `cancelAt` — the cancel endpoint (`DELETE /api/jobs/<id>`) writes
  `status = "cancelled"` asynchronously; `some c` means the write lands
  just before the `c`-th status read performed by the supervisor.

Reads of `job["status"]` are numbered in execution order; a read with
index `k` sees the cancellation iff `c ≤ k`.  Each `update_progress` call
first records `(message, progress)` and then performs one status read,
raising the cancellation exception when it is visible (lines 259-270).
`time.sleep` durations are integers in the source (`2 ** n`, `5 * n`) and
are recorded in seconds.  The supervisor's own terminal `job.update` wins
over the cancel flag (it is the last status write of the run). -/

/-- The filter configuration of `config/config.py` (all skip flags
`True`), as read through `app.config`. -/
def appFilterConfig : FilterConfig := ⟨true, true, true, true, true⟩

structure ConvEnv where
  pages : List PageContent
  extractErr : ℕ → Option String
  synthErr : ℕ → Option String
  cancelAt : Option ℕ

inductive JobStatus
  | processing
  | completed
  | failed
  | cancelled
deriving DecidableEq

/-- The exceptions that can cross the per-attempt `try` (line 249). -/
inductive ConvExn
  | cancelled
  | err (msg : String)
deriving DecidableEq

/-- `str(e)` of the exception (line 270 raises this exact text). -/
def exnMessage : ConvExn → String
  | .cancelled => "Job was cancelled by user"
  | .err m => m

/-- The observable job/record state threaded through the run. -/
structure ConvState where
  reads : ℕ
  calls : ℕ
  writes : List (String × ℚ)
  ttsWaits : List ℕ
  jobWaits : List ℕ
deriving DecidableEq

def cancelVisible (env : ConvEnv) (k : ℕ) : Bool :=
  match env.cancelAt with
  | none => false
  | some c => c ≤ k

/-- `update_progress(message, progress)` (lines 259-270): record the
write, then read the status once; the returned flag is true when the read
sees the cancellation (and the Python code raises). -/
def updateProgress (env : ConvEnv) (st : ConvState) (msg : String) (prog : ℚ) :
    ConvState × Bool :=
  ({ st with writes := st.writes ++ [(msg, prog)], reads := st.reads + 1 },
    cancelVisible env st.reads)

/-- A `update_progress` call as a fallible step: the cancellation read
raising is the `some .cancelled` outcome. -/
def uStep (env : ConvEnv) (msg : String) (prog : ℚ) (st : ConvState) :
    ConvState × Option ConvExn :=
  let u := updateProgress env st msg prog
  if u.2 then (u.1, some .cancelled) else (u.1, none)

/-- Exception-propagating sequencing: Python control flow where an
exception raised by the first statement skips the rest of the `try`. -/
def convSeq (r : ConvState × Option ConvExn)
    (k : ConvState → ConvState × Option ConvExn) : ConvState × Option ConvExn :=
  match r with
  | (s, some e) => (s, some e)
  | (s, none) => k s

/-- The per-chunk synthesis retry loop (lines 317-355).  `fuel` is
`3 - tts_retry_count`; a failure raises
`"TTS failed after 3 retries: TTS error: <last cause>"` once the count
reaches 3, otherwise the retry message is emitted (which may observe a
cancellation) and `2 ** count` seconds are slept. -/
def ttsChunkLoop (env : ConvEnv) (prog : ℚ) :
    ℕ → ℕ → ConvState → ConvState × Option ConvExn
  | 0, _, st => (st, none)    -- `while` guard exhausted (unreachable)
  | fuel + 1, count, st =>
    let st1 := { st with calls := st.calls + 1 }
    match env.synthErr st.calls with
    | none => (st1, none)     -- success: append the audio chunk, break
    | some cause =>
      let count2 := count + 1
      if 3 ≤ count2 then
        (st1, some (.err ("TTS failed after 3 retries: TTS error: " ++ cause)))
      else
        let wait := 2 ^ count2
        convSeq (uStep env
            ("TTS retry " ++ toString count2 ++ "/3 in " ++ toString wait ++
              "s...") prog st1)
          fun s => ttsChunkLoop env prog fuel count2
            { s with ttsWaits := s.ttsWaits ++ [wait] }

/-- The chunk loop (lines 312-355): `rem` chunks remain, the current one
has index `i` out of `n`. -/
def chunksLoop (env : ConvEnv) (n : ℕ) :
    ℕ → ℕ → ConvState → ConvState × Option ConvExn
  | 0, _, st => (st, none)
  | rem + 1, i, st =>
    convSeq (uStep env
        ("Synthesizing speech " ++ toString (i + 1) ++ "/" ++ toString n)
        (1/2 + ((i : ℚ) / (n : ℚ)) * (3/10)) st)
      fun s1 =>
    convSeq (ttsChunkLoop env (1/2 + ((i : ℚ) / (n : ℚ)) * (3/10)) 3 0 s1)
      fun s2 => chunksLoop env n rem (i + 1) s2

/-- The progress callbacks issued by `combine_audio_chunks`
(audio_processor lines 55-58), mapped through the lambda of app line 363:
`update_progress(msg, 0.8 + prog * 0.15)` with `prog = (i/total) * 0.8`. -/
def combineCallbacks (env : ConvEnv) (n : ℕ) :
    ℕ → ℕ → ConvState → ConvState × Option ConvExn
  | 0, _, st => (st, none)
  | rem + 1, i, st =>
    convSeq (uStep env
        ("Processing chunk " ++ toString (i + 1) ++ "/" ++ toString n)
        (4/5 + ((i : ℚ) / (n : ℚ) * (4/5)) * (3/20)) st)
      fun s => combineCallbacks env n rem (i + 1) s

/-- The text-preparation stage (lines 291-302): sections of the filtered
pages, each section chunked, tagged with its chapter title. -/
def pipelineChunks (pages : List PageContent) : List (List Char × List Char) :=
  ((filterSections (detectChapters (filterPages pages appFilterConfig))
      appFilterConfig).map
    (fun sec => (chunkTextForTTS sec.content 4000).map
      (fun t => (t, sec.title)))).join

/-- The `extract_text_from_pdf` call (line 275): the pipeline's IO
boundary; a raised error becomes the attempt's exception. -/
def extractStep (env : ConvEnv) (a : ℕ) (st : ConvState) :
    ConvState × Option ConvExn :=
  match env.extractErr a with
  | some e => (st, some (ConvExn.err e))
  | none => (st, none)

/-- One pipeline attempt: the body of the `try` (lines 250-403) after the
top-of-loop cancellation check.  Returns the state and `none` on success
(the completion update included) or the exception that escaped. -/
def runAttempt (env : ConvEnv) (a : ℕ) (st : ConvState) :
    ConvState × Option ConvExn :=
  let n := (pipelineChunks env.pages).length
  convSeq (uStep env "Extracting text from PDF..." (1/10) st) fun s1 =>
  convSeq (extractStep env a s1) fun s2 =>
  convSeq (uStep env "Filtering content..." (1/5) s2) fun s3 =>
  convSeq (uStep env "Detecting chapters..." (3/10) s3) fun s4 =>
  convSeq (uStep env "Preparing text for speech synthesis..." (2/5) s4)
    fun s5 =>
  convSeq (uStep env
      ("Converting " ++ toString n ++ " text chunks to speech...") (1/2) s5)
    fun s6 =>
  convSeq (chunksLoop env n n 0 s6) fun s7 =>
  convSeq (uStep env "Combining audio chunks..." (4/5) s7) fun s8 =>
  convSeq (combineCallbacks env n n 0 s8) fun s9 =>
  convSeq (uStep env "Audio combination complete" (4/5 + (4/5) * (3/20)) s9)
    fun s10 =>
  convSeq (uStep env "Exporting final MP3..." (19/20) s10) fun s11 =>
  convSeq (uStep env "Exporting MP3..." (19/20 + (4/5) * (1/20)) s11)
    fun s12 =>
  convSeq (uStep env "Adding detailed metadata..."
      (19/20 + (9/10) * (1/20)) s12) fun s13 =>
  convSeq (uStep env "Export complete" (19/20 + 1 * (1/20)) s13) fun s14 =>
  -- job.update of lines 390-397: status "completed", progress 100
  ({ s14 with writes :=
      s14.writes ++ [("Conversion completed successfully", 100)] }, none)

/-- The observable outcome of a `process_conversion` run. -/
structure RunResult where
  status : JobStatus
  error : Option String
  writes : List (String × ℚ)
  ttsWaits : List ℕ
  jobWaits : List ℕ
  reads : ℕ
  calls : ℕ
  topObs : Bool
  midObs : Option ℕ
  attemptsStarted : ℕ
deriving DecidableEq

def mkResult (st : ConvState) (status : JobStatus) (error : Option String)
    (topObs : Bool) (midObs : Option ℕ) (attempts : ℕ) : RunResult :=
  ⟨status, error, st.writes, st.ttsWaits, st.jobWaits, st.reads, st.calls,
    topObs, midObs, attempts⟩

/-- The `while retry_count < max_retries` loop (lines 248-436).  `fuel` is
`3 - retry_count`; `obs` records the attempt (1-based) during which a
cancellation exception was raised, for stating the cancellation claims.
An early return at the top check leaves the externally written
`"cancelled"` status in place; the terminal `job.update` calls set
`completed`/`failed`. -/
def runOuter (env : ConvEnv) :
    ℕ → ℕ → Option ℕ → ConvState → RunResult
  | 0, retry, obs, st =>
    -- `while` guard exhausted: unreachable, every third failure returns
    mkResult st .processing none false obs retry
  | fuel + 1, retry, obs, st =>
    -- line 253: `if job.get("status") == "cancelled": return`
    let visible := cancelVisible env st.reads
    let st1 := { st with reads := st.reads + 1 }
    if visible then
      mkResult st1 .cancelled none true obs retry
    else
      let r := runAttempt env retry st1
      match r.2 with
      | none => mkResult r.1 .completed none false obs (retry + 1)
      | some e =>
        let retry2 := retry + 1
        let obs2 := match e with
          | .cancelled => some retry2
          | .err _ => obs
        if 3 ≤ retry2 then
          -- lines 409-421: terminal failure; this job.update carries a
          -- message and the error but no "progress" key, so `writes`
          -- (the progress updates) is unchanged
          mkResult r.1 .failed (some (exnMessage e)) false obs2 retry2
        else
          -- lines 422-436: retry message, progress reset to 0, sleep
          runOuter env fuel retry2 obs2
            { r.1 with
              writes := r.1.writes ++
                [("Retrying conversion in " ++ toString (5 * retry2) ++
                  "s (attempt " ++ toString (retry2 + 1) ++ "/3)", 0)],
              jobWaits := r.1.jobWaits ++ [5 * retry2] }

/-- `process_conversion(job_id, settings)`. -/
def processConversion (env : ConvEnv) : RunResult :=
  runOuter env 3 0 none ⟨0, 0, [], [], []⟩

/-! ### Progress-value and cancellation-soundness invariants -/

/-- The amended progress invariant: a fraction in `[0,1]`, or the literal
`100` of the completion update. -/
def progOK (p : ℚ) : Prop := (0 ≤ p ∧ p ≤ 1) ∨ p = 100

def writesOK (l : List (String × ℚ)) : Prop := ∀ w ∈ l, progOK w.2

/-- A step outcome is cancellation-sound when it only reports the
cancellation exception if the cancel flag is visible at the state's read
cursor. -/
def cancelSound (env : ConvEnv) (r : ConvState × Option ConvExn) : Prop :=
  r.2 = some ConvExn.cancelled → cancelVisible env r.1.reads = true

theorem cancelVisible_mono {env : ConvEnv} {k k' : ℕ}
    (h : cancelVisible env k = true) (hk : k ≤ k') :
    cancelVisible env k' = true := by
  cases hc : env.cancelAt with
  | none => rw [cancelVisible, hc] at h; exact absurd h (by simp)
  | some c =>
    rw [cancelVisible, hc] at h ⊢
    simp only [decide_eq_true_eq] at h ⊢
    omega

theorem writesOK_append {l : List (String × ℚ)} (h : writesOK l)
    {m : String} {q : ℚ} (hq : progOK q) : writesOK (l ++ [(m, q)]) := by
  intro w hw
  rcases List.mem_append.1 hw with h1 | h1
  · exact h w h1
  · rcases List.mem_singleton.1 h1 with rfl
    exact hq

theorem uStep_writes (env : ConvEnv) (m : String) (q : ℚ) (st : ConvState)
    (h : writesOK st.writes) (hq : progOK q) :
    writesOK (uStep env m q st).1.writes := by
  rw [uStep]
  split <;> exact writesOK_append h hq

theorem uStep_cancel (env : ConvEnv) (m : String) (q : ℚ) (st : ConvState) :
    cancelSound env (uStep env m q st) := by
  rw [cancelSound, uStep]
  split
  next hv =>
    intro _
    simp only [updateProgress] at hv ⊢
    exact cancelVisible_mono hv (Nat.le_succ _)
  next =>
    intro h
    exact absurd h (by simp)

theorem convSeq_writes {r : ConvState × Option ConvExn}
    {k : ConvState → ConvState × Option ConvExn}
    (h1 : writesOK r.1.writes)
    (h2 : ∀ s, writesOK s.writes → writesOK (k s).1.writes) :
    writesOK (convSeq r k).1.writes := by
  rcases r with ⟨s, e⟩
  cases e
  · exact h2 s h1
  · exact h1

theorem convSeq_cancel {env : ConvEnv} {r : ConvState × Option ConvExn}
    {k : ConvState → ConvState × Option ConvExn}
    (h1 : cancelSound env r) (h2 : ∀ s, cancelSound env (k s)) :
    cancelSound env (convSeq r k) := by
  rcases r with ⟨s, e⟩
  cases e
  · exact h2 s
  · exact h1

theorem progOK_of_bounds {q : ℚ} (h0 : 0 ≤ q) (h1 : q ≤ 1) : progOK q :=
  Or.inl ⟨h0, h1⟩

theorem chunkProgOK {i n : ℕ} (h : i < n) :
    progOK (1/2 + ((i : ℚ) / (n : ℚ)) * (3/10)) := by
  have hn : (0:ℚ) < (n : ℚ) := by
    exact_mod_cast Nat.pos_of_ne_zero (by omega)
  have h0 : (0:ℚ) ≤ (i : ℚ) / (n : ℚ) :=
    div_nonneg (Nat.cast_nonneg i) hn.le
  have h1 : (i : ℚ) / (n : ℚ) ≤ 1 := by
    rw [div_le_one hn]
    exact_mod_cast h.le
  exact progOK_of_bounds (by nlinarith) (by nlinarith)

theorem combineProgOK {i n : ℕ} (h : i < n) :
    progOK (4/5 + ((i : ℚ) / (n : ℚ) * (4/5)) * (3/20)) := by
  have hn : (0:ℚ) < (n : ℚ) := by
    exact_mod_cast Nat.pos_of_ne_zero (by omega)
  have h0 : (0:ℚ) ≤ (i : ℚ) / (n : ℚ) :=
    div_nonneg (Nat.cast_nonneg i) hn.le
  have h1 : (i : ℚ) / (n : ℚ) ≤ 1 := by
    rw [div_le_one hn]
    exact_mod_cast h.le
  exact progOK_of_bounds (by nlinarith) (by nlinarith)

theorem ttsChunkLoop_writes (env : ConvEnv) (prog : ℚ) (hp : progOK prog) :
    ∀ fuel count st, writesOK st.writes →
      writesOK (ttsChunkLoop env prog fuel count st).1.writes := by
  intro fuel
  induction fuel with
  | zero => intro count st h; exact h
  | succ fuel ih =>
    intro count st h
    rw [ttsChunkLoop]
    cases hs : env.synthErr st.calls with
    | none => exact h
    | some cause =>
      dsimp only
      split
      · exact h
      · exact convSeq_writes (uStep_writes _ _ _ _ h hp)
          (fun s hs2 => ih _ _ hs2)

theorem ttsChunkLoop_cancel (env : ConvEnv) (prog : ℚ) :
    ∀ fuel count st, cancelSound env (ttsChunkLoop env prog fuel count st) := by
  intro fuel
  induction fuel with
  | zero =>
    intro count st h
    rw [ttsChunkLoop] at h
    exact absurd h (by simp)
  | succ fuel ih =>
    intro count st
    rw [ttsChunkLoop]
    cases hs : env.synthErr st.calls with
    | none => intro h; exact absurd h (by simp)
    | some cause =>
      dsimp only
      split
      · intro h; exact absurd h (by simp)
      · exact convSeq_cancel (uStep_cancel _ _ _ _) (fun s => ih _ _)

theorem chunksLoop_writes (env : ConvEnv) (n : ℕ) :
    ∀ rem i st, i + rem ≤ n → writesOK st.writes →
      writesOK (chunksLoop env n rem i st).1.writes := by
  intro rem
  induction rem with
  | zero => intro i st _ h; exact h
  | succ rem ih =>
    intro i st hle h
    have hi : i < n := by omega
    rw [chunksLoop]
    exact convSeq_writes (uStep_writes _ _ _ _ h (chunkProgOK hi))
      (fun s1 h1 => convSeq_writes
        (ttsChunkLoop_writes env _ (chunkProgOK hi) 3 0 s1 h1)
        (fun s2 h2 => ih (i + 1) s2 (by omega) h2))

theorem chunksLoop_cancel (env : ConvEnv) (n : ℕ) :
    ∀ rem i st, cancelSound env (chunksLoop env n rem i st) := by
  intro rem
  induction rem with
  | zero =>
    intro i st h
    rw [chunksLoop] at h
    exact absurd h (by simp)
  | succ rem ih =>
    intro i st
    rw [chunksLoop]
    exact convSeq_cancel (uStep_cancel _ _ _ _)
      (fun s1 => convSeq_cancel (ttsChunkLoop_cancel env _ 3 0 s1)
        (fun s2 => ih (i + 1) s2))

theorem combineCallbacks_writes (env : ConvEnv) (n : ℕ) :
    ∀ rem i st, i + rem ≤ n → writesOK st.writes →
      writesOK (combineCallbacks env n rem i st).1.writes := by
  intro rem
  induction rem with
  | zero => intro i st _ h; exact h
  | succ rem ih =>
    intro i st hle h
    have hi : i < n := by omega
    rw [combineCallbacks]
    exact convSeq_writes (uStep_writes _ _ _ _ h (combineProgOK hi))
      (fun s1 h1 => ih (i + 1) s1 (by omega) h1)

theorem combineCallbacks_cancel (env : ConvEnv) (n : ℕ) :
    ∀ rem i st, cancelSound env (combineCallbacks env n rem i st) := by
  intro rem
  induction rem with
  | zero =>
    intro i st h
    rw [combineCallbacks] at h
    exact absurd h (by simp)
  | succ rem ih =>
    intro i st
    rw [combineCallbacks]
    exact convSeq_cancel (uStep_cancel _ _ _ _) (fun s1 => ih (i + 1) s1)

theorem runAttempt_writes (env : ConvEnv) (a : ℕ) (st : ConvState)
    (h : writesOK st.writes) : writesOK (runAttempt env a st).1.writes := by
  rw [runAttempt]
  refine convSeq_writes
    (uStep_writes _ _ _ _ h (progOK_of_bounds (by norm_num) (by norm_num)))
    (fun s1 h1 => ?_)
  refine convSeq_writes ?_ (fun s2 h2 => ?_)
  · rw [extractStep]
    cases env.extractErr a <;> exact h1
  refine convSeq_writes
    (uStep_writes _ _ _ _ h2 (progOK_of_bounds (by norm_num) (by norm_num)))
    (fun s3 h3 => ?_)
  refine convSeq_writes
    (uStep_writes _ _ _ _ h3 (progOK_of_bounds (by norm_num) (by norm_num)))
    (fun s4 h4 => ?_)
  refine convSeq_writes
    (uStep_writes _ _ _ _ h4 (progOK_of_bounds (by norm_num) (by norm_num)))
    (fun s5 h5 => ?_)
  refine convSeq_writes
    (uStep_writes _ _ _ _ h5 (progOK_of_bounds (by norm_num) (by norm_num)))
    (fun s6 h6 => ?_)
  refine convSeq_writes
    (chunksLoop_writes env _ _ 0 s6 (by omega) h6) (fun s7 h7 => ?_)
  refine convSeq_writes
    (uStep_writes _ _ _ _ h7 (progOK_of_bounds (by norm_num) (by norm_num)))
    (fun s8 h8 => ?_)
  refine convSeq_writes
    (combineCallbacks_writes env _ _ 0 s8 (by omega) h8) (fun s9 h9 => ?_)
  refine convSeq_writes
    (uStep_writes _ _ _ _ h9 (progOK_of_bounds (by norm_num) (by norm_num)))
    (fun s10 h10 => ?_)
  refine convSeq_writes
    (uStep_writes _ _ _ _ h10 (progOK_of_bounds (by norm_num) (by norm_num)))
    (fun s11 h11 => ?_)
  refine convSeq_writes
    (uStep_writes _ _ _ _ h11 (progOK_of_bounds (by norm_num) (by norm_num)))
    (fun s12 h12 => ?_)
  refine convSeq_writes
    (uStep_writes _ _ _ _ h12 (progOK_of_bounds (by norm_num) (by norm_num)))
    (fun s13 h13 => ?_)
  refine convSeq_writes
    (uStep_writes _ _ _ _ h13 (progOK_of_bounds (by norm_num) (by norm_num)))
    (fun s14 h14 => ?_)
  exact writesOK_append h14 (Or.inr rfl)

theorem runAttempt_cancel (env : ConvEnv) (a : ℕ) (st : ConvState) :
    cancelSound env (runAttempt env a st) := by
  rw [runAttempt]
  refine convSeq_cancel (uStep_cancel _ _ _ _) (fun s1 => ?_)
  refine convSeq_cancel ?_ (fun s2 => ?_)
  · rw [extractStep]
    cases env.extractErr a <;> (intro h; exact absurd h (by simp))
  refine convSeq_cancel (uStep_cancel _ _ _ _) (fun s3 => ?_)
  refine convSeq_cancel (uStep_cancel _ _ _ _) (fun s4 => ?_)
  refine convSeq_cancel (uStep_cancel _ _ _ _) (fun s5 => ?_)
  refine convSeq_cancel (uStep_cancel _ _ _ _) (fun s6 => ?_)
  refine convSeq_cancel (chunksLoop_cancel env _ _ 0 s6) (fun s7 => ?_)
  refine convSeq_cancel (uStep_cancel _ _ _ _) (fun s8 => ?_)
  refine convSeq_cancel (combineCallbacks_cancel env _ _ 0 s8) (fun s9 => ?_)
  refine convSeq_cancel (uStep_cancel _ _ _ _) (fun s10 => ?_)
  refine convSeq_cancel (uStep_cancel _ _ _ _) (fun s11 => ?_)
  refine convSeq_cancel (uStep_cancel _ _ _ _) (fun s12 => ?_)
  refine convSeq_cancel (uStep_cancel _ _ _ _) (fun s13 => ?_)
  refine convSeq_cancel (uStep_cancel _ _ _ _) (fun s14 => ?_)
  intro h
  exact absurd h (by simp)

theorem runOuter_writes (env : ConvEnv) :
    ∀ fuel retry obs st, writesOK st.writes →
      writesOK (runOuter env fuel retry obs st).writes := by
  intro fuel
  induction fuel with
  | zero => intro retry obs st h; exact h
  | succ fuel ih =>
    intro retry obs st h
    rw [runOuter]
    dsimp only
    split
    · exact h
    · have hra := runAttempt_writes env retry { st with reads := st.reads + 1 } h
      split
      · exact hra
      · split
        · exact hra
        · exact ih _ _ _ (writesOK_append hra
            (progOK_of_bounds (le_refl 0) (by norm_num)))

theorem runOuter_cancelProps (env : ConvEnv) :
    ∀ fuel retry obs st,
      (∀ a, obs = some a → cancelVisible env st.reads = true ∧ a = retry) →
      retry + fuel = 3 →
      ((runOuter env fuel retry obs st).topObs = true →
        (runOuter env fuel retry obs st).status = JobStatus.cancelled) ∧
      (∀ a, (runOuter env fuel retry obs st).midObs = some a → a ≤ 2 →
        (runOuter env fuel retry obs st).status = JobStatus.cancelled) ∧
      ((runOuter env fuel retry obs st).status = JobStatus.failed →
        (runOuter env fuel retry obs st).midObs = none ∨
        (runOuter env fuel retry obs st).midObs = some 3) ∧
      ((runOuter env fuel retry obs st).status = JobStatus.completed →
        (runOuter env fuel retry obs st).midObs = none ∧
        (runOuter env fuel retry obs st).topObs = false) := by
  intro fuel
  induction fuel with
  | zero =>
    intro retry obs st hobs hre
    rw [runOuter]
    refine ⟨?_, ?_, ?_, ?_⟩
    · intro h; exact absurd h (by simp [mkResult])
    · intro a ha hle
      have h2 := (hobs a ha).2
      omega
    · intro h; exact absurd h (by simp [mkResult])
    · intro h; exact absurd h (by simp [mkResult])
  | succ fuel ih =>
    intro retry obs st hobs hre
    rw [runOuter]
    dsimp only
    split
    next hv =>
      refine ⟨fun _ => rfl, fun a _ _ => rfl, ?_, ?_⟩
      · intro h; exact absurd h (by simp [mkResult])
      · intro h; exact absurd h (by simp [mkResult])
    next hv =>
      split
      next heq =>
        refine ⟨fun h => absurd h (by simp [mkResult]), ?_,
          fun h => absurd h (by simp [mkResult]), fun _ => ⟨?_, rfl⟩⟩
        · intro a ha _
          exact absurd (hobs a ha).1 hv
        · cases hobso : obs with
          | none => rfl
          | some a => exact absurd (hobs a hobso).1 hv
      next e heq =>
        split
        next h3 =>
          refine ⟨fun h => absurd h (by simp [mkResult]), ?_, ?_,
            fun h => absurd h (by simp [mkResult])⟩
          · intro a ha hle
            cases e with
            | cancelled =>
              have : retry + 1 = a := Option.some.inj ha
              omega
            | err m => exact absurd (hobs a ha).1 hv
          · intro _
            cases e with
            | cancelled =>
              refine Or.inr ?_
              show some (retry + 1) = some 3
              have h33 : retry + 1 = 3 := by omega
              rw [h33]
            | err m =>
              cases hobso : obs with
              | none => exact Or.inl rfl
              | some a => exact absurd (hobs a hobso).1 hv
        next h3 =>
          refine ih (retry + 1) _ _ ?_ (by omega)
          intro a ha
          cases e with
          | cancelled =>
            have hvis := runAttempt_cancel env retry
              { st with reads := st.reads + 1 } heq
            exact ⟨hvis, (Option.some.inj ha).symm⟩
          | err m => exact absurd (hobs a ha).1 hv

/-- C3 (amended): a cancellation observed at the top of the pipeline
retry loop, or raised inside any of the first two pipeline attempts,
ends the job Cancelled; a cancellation raised during the third (last)
attempt is converted into the Failed terminal state by the
`retry_count >= max_retries` handler, so a Failed run can still have
observed the cancellation, but only on attempt 3; a Completed run never
observed one. -/
theorem processConversion_cancellation (env : ConvEnv) :
    ((processConversion env).topObs = true →
      (processConversion env).status = JobStatus.cancelled) ∧
    (∀ a, (processConversion env).midObs = some a → a ≤ 2 →
      (processConversion env).status = JobStatus.cancelled) ∧
    ((processConversion env).status = JobStatus.failed →
      (processConversion env).midObs = none ∨
      (processConversion env).midObs = some 3) ∧
    ((processConversion env).status = JobStatus.completed →
      (processConversion env).midObs = none ∧
      (processConversion env).topObs = false) :=
  runOuter_cancelProps env 3 0 none ⟨0, 0, [], [], []⟩
    (fun a ha => absurd ha (by simp)) rfl

/-- C3 counterexample: with extraction failing on the first two attempts
and the cancel endpoint firing just before the sixth status read, the
cancellation exception is raised during the third attempt and the
supervisor ends the job Failed — with the cancellation text as the
error — not Cancelled, refuting the claim that a recorded cancellation
is never converted into Failed. -/
theorem processConversion_cancellation_cex :
    (processConversion ⟨[], fun a => if a ≤ 1 then some "boom" else none,
        fun _ => none, some 5⟩).midObs = some 3 ∧
      (processConversion ⟨[], fun a => if a ≤ 1 then some "boom" else none,
        fun _ => none, some 5⟩).status = JobStatus.failed ∧
      (processConversion ⟨[], fun a => if a ≤ 1 then some "boom" else none,
        fun _ => none, some 5⟩).error = some "Job was cancelled by user" :=
  ⟨rfl, rfl, rfl⟩

/-- C3 witness: a cancellation observed during the first attempt ends the
job Cancelled, by the amended theorem. -/
theorem processConversion_cancellation_witness :
    (processConversion ⟨[], fun _ => none, fun _ => none,
        some 1⟩).midObs = some 1 ∧
      (processConversion ⟨[], fun _ => none, fun _ => none,
        some 1⟩).status = JobStatus.cancelled :=
  ⟨rfl, (processConversion_cancellation
      ⟨[], fun _ => none, fun _ => none, some 1⟩).2.1 1 rfl (by decide)⟩

/-- C4 (amended): every progress value the supervisor records is either a
fraction in `[0,1]` or the literal `100` written by the completion
`job.update` of lines 390-397. -/
theorem processConversion_progress (env : ConvEnv) :
    ∀ p ∈ (processConversion env).writes.map Prod.snd,
      (0 ≤ p ∧ p ≤ 1) ∨ p = 100 := by
  intro p hp
  rcases List.mem_map.1 hp with ⟨w, hw, rfl⟩
  refine runOuter_writes env 3 0 none ⟨0, 0, [], [], []⟩ ?_ w hw
  intro w hw
  exact absurd hw (List.not_mem_nil w)

/-- C4 witness: on a trivial job the supervisor's first recorded progress
value is `1/10`, and the amended bound holds for it. -/
theorem processConversion_progress_witness :
    (1/10 : ℚ) ∈ (processConversion
        ⟨[], fun _ => none, fun _ => none, none⟩).writes.map Prod.snd ∧
      (((0:ℚ) ≤ 1/10 ∧ (1/10 : ℚ) ≤ 1) ∨ (1/10 : ℚ) = 100) :=
  ⟨List.Mem.head _,
    processConversion_progress ⟨[], fun _ => none, fun _ => none, none⟩
      (1/10) (List.Mem.head _)⟩

/-- C4 counterexample: on a job that completes, the last recorded
progress value is `100`, which is not a fraction in `[0,1]` — the claim
as stated (every recorded progress lies in `[0,1]`) is false. -/
theorem processConversion_progress_cex :
    ((processConversion ⟨[], fun _ => none, fun _ => none, none⟩).writes.map
        Prod.snd).getLast? = some 100 ∧
      ¬((0:ℚ) ≤ 100 ∧ (100:ℚ) ≤ 1) := by
  constructor
  · rfl
  · intro h
    have := h.2
    norm_num at this

/-! ### Per-chunk synthesis retry — evaluation of `ttsChunkLoop` -/

/-- The state after one failed synthesis call followed by the retry
update and the recorded backoff sleep (`count` is the pre-failure retry
count). -/
def ttsRetryState (st : ConvState) (count : ℕ) (prog : ℚ) : ConvState :=
  { st with
    calls := st.calls + 1,
    reads := st.reads + 1,
    writes := st.writes ++
      [("TTS retry " ++ toString (count + 1) ++ "/3 in " ++
         toString (2 ^ (count + 1)) ++ "s...", prog)],
    ttsWaits := st.ttsWaits ++ [2 ^ (count + 1)] }

theorem convSeq_nonestep (s : ConvState)
    (k : ConvState → ConvState × Option ConvExn) :
    convSeq (s, none) k = k s := rfl

theorem convSeq_of_none {r : ConvState × Option ConvExn}
    {k : ConvState → ConvState × Option ConvExn} (h : r.2 = none) :
    convSeq r k = k r.1 := by
  rcases r with ⟨s, e⟩
  cases e
  · rfl
  · exact absurd h (by simp)

theorem uStep_nocancel (env : ConvEnv) (hc : env.cancelAt = none)
    (m : String) (q : ℚ) (st : ConvState) :
    uStep env m q st =
      ({ st with writes := st.writes ++ [(m, q)], reads := st.reads + 1 },
        none) := by
  rw [uStep, updateProgress]
  simp [cancelVisible, hc]

theorem extractStep_none (env : ConvEnv) (a : ℕ)
    (he : env.extractErr a = none) (st : ConvState) :
    extractStep env a st = (st, none) := by
  rw [extractStep, he]

theorem ttsChunkLoop_step_success (env : ConvEnv) (prog : ℚ)
    (fuel count : ℕ) (st : ConvState)
    (hs : env.synthErr st.calls = none) :
    ttsChunkLoop env prog (fuel + 1) count st =
      ({ st with calls := st.calls + 1 }, none) := by
  rw [ttsChunkLoop, hs]

theorem ttsChunkLoop_step_retry (env : ConvEnv) (prog : ℚ)
    (fuel count : ℕ) (st : ConvState) (e : String)
    (hc : env.cancelAt = none)
    (hs : env.synthErr st.calls = some e) (hlt : count + 1 < 3) :
    ttsChunkLoop env prog (fuel + 1) count st =
      ttsChunkLoop env prog fuel (count + 1) (ttsRetryState st count prog) := by
  rw [ttsChunkLoop, hs]
  dsimp only
  rw [if_neg (by omega), uStep_nocancel env hc, convSeq_nonestep]
  rfl

theorem ttsChunkLoop_step_escalate (env : ConvEnv) (prog : ℚ)
    (fuel count : ℕ) (st : ConvState) (e : String)
    (hs : env.synthErr st.calls = some e) (hge : 3 ≤ count + 1) :
    ttsChunkLoop env prog (fuel + 1) count st =
      ({ st with calls := st.calls + 1 },
        some (ConvExn.err ("TTS failed after 3 retries: TTS error: " ++ e))) := by
  rw [ttsChunkLoop, hs]
  dsimp only
  rw [if_pos hge]

theorem ttsChunkRun_eval (env : ConvEnv) (prog : ℚ) (st : ConvState)
    (hc : env.cancelAt = none) :
    (env.synthErr st.calls = none →
      ttsChunkLoop env prog 3 0 st = ({ st with calls := st.calls + 1 }, none)) ∧
    (∀ e0, env.synthErr st.calls = some e0 →
      env.synthErr (st.calls + 1) = none →
      (ttsChunkLoop env prog 3 0 st).2 = none ∧
      (ttsChunkLoop env prog 3 0 st).1.calls = st.calls + 2 ∧
      (ttsChunkLoop env prog 3 0 st).1.ttsWaits = st.ttsWaits ++ [2]) ∧
    (∀ e0 e1, env.synthErr st.calls = some e0 →
      env.synthErr (st.calls + 1) = some e1 →
      env.synthErr (st.calls + 2) = none →
      (ttsChunkLoop env prog 3 0 st).2 = none ∧
      (ttsChunkLoop env prog 3 0 st).1.calls = st.calls + 3 ∧
      (ttsChunkLoop env prog 3 0 st).1.ttsWaits = st.ttsWaits ++ [2, 4]) ∧
    (∀ e0 e1 e2, env.synthErr st.calls = some e0 →
      env.synthErr (st.calls + 1) = some e1 →
      env.synthErr (st.calls + 2) = some e2 →
      (ttsChunkLoop env prog 3 0 st).2 =
        some (ConvExn.err ("TTS failed after 3 retries: TTS error: " ++ e2)) ∧
      (ttsChunkLoop env prog 3 0 st).1.ttsWaits = st.ttsWaits ++ [2, 4]) := by
  refine ⟨?_, ?_, ?_, ?_⟩
  · intro hs0
    exact ttsChunkLoop_step_success env prog 2 0 st hs0
  · intro e0 hs0 hs1
    rw [ttsChunkLoop_step_retry env prog 2 0 st e0 hc hs0 (by omega),
      ttsChunkLoop_step_success env prog 1 1 (ttsRetryState st 0 prog) hs1]
    exact ⟨rfl, rfl, rfl⟩
  · intro e0 e1 hs0 hs1 hs2
    rw [ttsChunkLoop_step_retry env prog 2 0 st e0 hc hs0 (by omega),
      ttsChunkLoop_step_retry env prog 1 1 (ttsRetryState st 0 prog) e1 hc
        hs1 (by omega),
      ttsChunkLoop_step_success env prog 0 2
        (ttsRetryState (ttsRetryState st 0 prog) 1 prog) hs2]
    refine ⟨rfl, rfl, ?_⟩
    show st.ttsWaits ++ [2] ++ [4] = st.ttsWaits ++ [2, 4]
    rw [List.append_assoc]
    rfl
  · intro e0 e1 e2 hs0 hs1 hs2
    rw [ttsChunkLoop_step_retry env prog 2 0 st e0 hc hs0 (by omega),
      ttsChunkLoop_step_retry env prog 1 1 (ttsRetryState st 0 prog) e1 hc
        hs1 (by omega),
      ttsChunkLoop_step_escalate env prog 0 2
        (ttsRetryState (ttsRetryState st 0 prog) 1 prog) e2 hs2 (by omega)]
    refine ⟨rfl, ?_⟩
    show st.ttsWaits ++ [2] ++ [4] = st.ttsWaits ++ [2, 4]
    rw [List.append_assoc]
    rfl

theorem ttsChunkLoop_ok (env : ConvEnv) (hc : env.cancelAt = none)
    (hw : ∀ k, env.synthErr k = none ∨ env.synthErr (k + 1) = none ∨
      env.synthErr (k + 2) = none) (prog : ℚ) (st : ConvState) :
    (ttsChunkLoop env prog 3 0 st).2 = none := by
  have hev := ttsChunkRun_eval env prog st hc
  cases hs0 : env.synthErr st.calls with
  | none => rw [hev.1 hs0]
  | some e0 =>
    cases hs1 : env.synthErr (st.calls + 1) with
    | none => exact (hev.2.1 e0 hs0 hs1).1
    | some e1 =>
      cases hs2 : env.synthErr (st.calls + 2) with
      | none => exact (hev.2.2.1 e0 e1 hs0 hs1 hs2).1
      | some e2 =>
        rcases hw st.calls with h | h | h
        · rw [hs0] at h; exact Option.noConfusion h
        · rw [hs1] at h; exact Option.noConfusion h
        · rw [hs2] at h; exact Option.noConfusion h

theorem chunksLoop_ok (env : ConvEnv) (hc : env.cancelAt = none)
    (hw : ∀ k, env.synthErr k = none ∨ env.synthErr (k + 1) = none ∨
      env.synthErr (k + 2) = none) (n : ℕ) :
    ∀ rem i st, (chunksLoop env n rem i st).2 = none := by
  intro rem
  induction rem with
  | zero => intro i st; rw [chunksLoop]
  | succ rem ih =>
    intro i st
    rw [chunksLoop]
    simp only [uStep_nocancel env hc, convSeq_nonestep,
      convSeq_of_none (ttsChunkLoop_ok env hc hw _ _)]
    exact ih (i + 1) _

theorem combineCallbacks_ok (env : ConvEnv) (hc : env.cancelAt = none)
    (n : ℕ) : ∀ rem i st, (combineCallbacks env n rem i st).2 = none := by
  intro rem
  induction rem with
  | zero => intro i st; rw [combineCallbacks]
  | succ rem ih =>
    intro i st
    rw [combineCallbacks]
    simp only [uStep_nocancel env hc, convSeq_nonestep]
    exact ih (i + 1) _

theorem runAttempt_ok (env : ConvEnv) (a : ℕ) (st : ConvState)
    (hc : env.cancelAt = none) (he : env.extractErr a = none)
    (hw : ∀ k, env.synthErr k = none ∨ env.synthErr (k + 1) = none ∨
      env.synthErr (k + 2) = none) :
    (runAttempt env a st).2 = none := by
  rw [runAttempt]
  simp only [uStep_nocancel env hc, extractStep_none env a he,
    convSeq_nonestep,
    convSeq_of_none (chunksLoop_ok env hc hw _ _ _ _),
    convSeq_of_none (combineCallbacks_ok env hc _ _ _ _)]

theorem processConversion_noJobRetry (env : ConvEnv)
    (hc : env.cancelAt = none) (he : env.extractErr 0 = none)
    (hw : ∀ k, env.synthErr k = none ∨ env.synthErr (k + 1) = none ∨
      env.synthErr (k + 2) = none) :
    (processConversion env).status = JobStatus.completed ∧
      (processConversion env).attemptsStarted = 1 := by
  have hra : (runAttempt env 0 (⟨1, 0, [], [], []⟩ : ConvState)).2 = none :=
    runAttempt_ok env 0 ⟨1, 0, [], [], []⟩ hc he hw
  rw [processConversion, runOuter]
  dsimp only
  rw [if_neg (show ¬cancelVisible env 0 = true by simp [cancelVisible, hc])]
  split
  next heq => exact ⟨rfl, rfl⟩
  next e heq => exact absurd (heq.symm.trans hra) (by simp)

/-- C5: per-chunk synthesis retry.  With no cancellation pending: a chunk
whose synthesis call succeeds makes one call and records no backoff; one
failure then success makes two calls with a 2-second backoff; two
failures then success make three calls with backoffs 2 and 4; three
failures escalate "TTS failed after 3 retries: TTS error: <last cause>",
carrying the last underlying cause, which aborts the pipeline attempt.
Moreover a job whose every window of three consecutive synthesis calls
contains a success (in particular one that fails twice then succeeds on
the third try) completes on the first pipeline attempt — no job-level
retry. -/
theorem processConversion_ttsRetry (env : ConvEnv) (prog : ℚ)
    (st : ConvState) (hc : env.cancelAt = none) :
    (env.synthErr st.calls = none →
      ttsChunkLoop env prog 3 0 st =
        ({ st with calls := st.calls + 1 }, none)) ∧
    (∀ e0, env.synthErr st.calls = some e0 →
      env.synthErr (st.calls + 1) = none →
      (ttsChunkLoop env prog 3 0 st).2 = none ∧
      (ttsChunkLoop env prog 3 0 st).1.calls = st.calls + 2 ∧
      (ttsChunkLoop env prog 3 0 st).1.ttsWaits = st.ttsWaits ++ [2]) ∧
    (∀ e0 e1, env.synthErr st.calls = some e0 →
      env.synthErr (st.calls + 1) = some e1 →
      env.synthErr (st.calls + 2) = none →
      (ttsChunkLoop env prog 3 0 st).2 = none ∧
      (ttsChunkLoop env prog 3 0 st).1.calls = st.calls + 3 ∧
      (ttsChunkLoop env prog 3 0 st).1.ttsWaits = st.ttsWaits ++ [2, 4]) ∧
    (∀ e0 e1 e2, env.synthErr st.calls = some e0 →
      env.synthErr (st.calls + 1) = some e1 →
      env.synthErr (st.calls + 2) = some e2 →
      (ttsChunkLoop env prog 3 0 st).2 =
        some (ConvExn.err ("TTS failed after 3 retries: TTS error: " ++ e2)) ∧
      (ttsChunkLoop env prog 3 0 st).1.ttsWaits = st.ttsWaits ++ [2, 4]) ∧
    (env.extractErr 0 = none →
      (∀ k, env.synthErr k = none ∨ env.synthErr (k + 1) = none ∨
        env.synthErr (k + 2) = none) →
      (processConversion env).status = JobStatus.completed ∧
        (processConversion env).attemptsStarted = 1) := by
  have hev := ttsChunkRun_eval env prog st hc
  exact ⟨hev.1, hev.2.1, hev.2.2.1, hev.2.2.2,
    fun he hw => processConversion_noJobRetry env hc he hw⟩

/-- C5 witness: a job with one chunkless page set whose synthesis oracle
fails twice then always succeeds satisfies the window hypothesis, and the
theorem yields completion on the first pipeline attempt. -/
theorem processConversion_ttsRetry_witness :
    (⟨[], fun _ => none,
      fun k => if k = 0 then some "a" else if k = 1 then some "b" else none,
      none⟩ : ConvEnv).cancelAt = none ∧
    (processConversion ⟨[], fun _ => none,
      fun k => if k = 0 then some "a" else if k = 1 then some "b" else none,
      none⟩).status = JobStatus.completed ∧
    (processConversion ⟨[], fun _ => none,
      fun k => if k = 0 then some "a" else if k = 1 then some "b" else none,
      none⟩).attemptsStarted = 1 :=
  ⟨rfl,
    (processConversion_ttsRetry
      ⟨[], fun _ => none,
        fun k => if k = 0 then some "a" else if k = 1 then some "b" else none,
        none⟩ 0 ⟨0, 0, [], [], []⟩ rfl).2.2.2.2 rfl
      (fun k => match k with
        | 0 => Or.inr (Or.inr rfl)
        | 1 => Or.inr (Or.inr rfl)
        | _ + 2 => Or.inl rfl)⟩

end Podcastify

